import Mathlib

/-!
# Verification of the Wirtinger-width four-bridge calculator

A shallow embedding of `calc_ww_fourbridge.py`: Gauss-code parsing, strand
decomposition, crossing resolution, color propagation, conflict counting and
the width search.  Python dictionaries are modelled as association lists in
insertion order, Python sets of strand tuples as insertion-ordered
duplicate-free lists, and the unbounded `while` loops as fuel-indexed
recursions (`none` = the loop is still running after `fuel` iterations).
Python runtime faults that the source can actually hit are modelled by
`PyErr`.
-/

set_option maxRecDepth 20000

/-- Runtime faults of the Python source: `valueError` from `int(...)`,
`indexError` from an out-of-range subscript (`gauss_code[0]` on an empty
code, `letter_list[i]` past `Z`), `unboundLocal` from reading `under1` /
`under2` in `find_crossings` before any assignment. -/
inductive PyErr where
  | valueError
  | indexError
  | unboundLocal
deriving Repr, DecidableEq

instance exceptDecEq {ε α : Type} [DecidableEq ε] [DecidableEq α] : DecidableEq (Except ε α) := fun x y =>
  match x, y with
  | Except.ok a, Except.ok b =>
    if h : a = b then Decidable.isTrue (congrArg Except.ok h)
    else Decidable.isFalse fun hh => h (Except.ok.inj hh)
  | Except.error a, Except.error b =>
    if h : a = b then Decidable.isTrue (congrArg Except.error h)
    else Decidable.isFalse fun hh => h (Except.error.inj hh)
  | Except.ok _, Except.error _ => Decidable.isFalse fun hh => Except.noConfusion hh
  | Except.error _, Except.ok _ => Decidable.isFalse fun hh => Except.noConfusion hh

/-- Accumulate a decimal numeral; `none` as soon as a non-digit appears. -/
def digitsToNatAux : List Char → Nat → Option Nat
  | [], acc => some acc
  | c :: rest, acc =>
    if c.isDigit then digitsToNatAux rest (acc * 10 + (c.toNat - 48)) else none

/-- A nonempty all-digit numeral, else `none`. -/
def digitsToNat : List Char → Option Nat
  | [] => none
  | cs => digitsToNatAux cs 0

/-- Python `int(...)` on a stripped token: an optional sign followed by a
nonempty run of decimal digits. -/
def pyInt : List Char → Option Int
  | '-' :: rest => (digitsToNat rest).map fun n => -(n : Int)
  | '+' :: rest => (digitsToNat rest).map fun n => (n : Int)
  | cs => (digitsToNat cs).map fun n => (n : Int)

/-- `process_gauss_code`: strip commas from each token (`s.replace(',', '')`)
and convert to an integer; a token that fails conversion raises
`ValueError`. -/
def processGaussCode (raw : List String) : Except PyErr (List Int) :=
  raw.mapM fun s =>
    match pyInt (s.data.filter fun c => c ≠ ',') with
    | some n => Except.ok n
    | none => Except.error PyErr.valueError

/-- Circular read `gauss_code[i]` (callers keep `i < len`, so the default
is never consulted on the paths the source exercises). -/
def gcAt (gc : List Int) (i : Nat) : Int :=
  gc.getD i 0

/-- The inner `while gauss_code[i] > 0` scan of `find_strands`: first index
reached from `start` (circularly) holding a non-positive entry.  The scan is
entered only while some entry of `gc` is negative, so the fallback is dead. -/
def nextUnderIdx (gc : List Int) (start : Nat) : Nat :=
  match (List.range gc.length).find? (fun t => gcAt gc ((start + t) % gc.length) ≤ 0) with
  | some t => (start + t) % gc.length
  | none => start

/-- The strand tuple recorded by `find_strands` for a strand beginning at
index `b` and ending at index `e`: `gauss_code[b:] + gauss_code[:e+1]` when
the strand wraps (`b > e`), else `gauss_code[b:e+1]`. -/
def strandSlice (gc : List Int) (b e : Nat) : List Int :=
  if e < b then gc.drop b ++ gc.take (e + 1) else (gc.drop b).take (e + 1 - b)

/-- The `while True` scanning loop of `find_strands`, one fuel unit per
iteration.  At a negative entry it records the strand starting there and
jumps to that strand's final under-pass; it stops when a strand tuple
repeats; otherwise it advances `i` by one modulo the length. -/
def findStrandsLoop (gc : List Int) : Nat → Nat → List (List Int) → Option (List (List Int))
  | 0, _, _ => none
  | fuel + 1, i, acc =>
    if gcAt gc i < 0 then
      let e := nextUnderIdx gc ((i + 1) % gc.length)
      let s := strandSlice gc i e
      if s ∈ acc then some acc
      else findStrandsLoop gc fuel e (acc ++ [s])
    else findStrandsLoop gc fuel ((i + 1) % gc.length) acc

/-- `letter_list = list(map(chr, range(65, 91)))`. -/
def letterList : List Char :=
  (List.range 26).map fun i => Char.ofNat (65 + i)

/-- `find_strands`: scan the circular code collecting strand tuples, then
name them `A`, `B`, ... in order.  An empty code hits `gauss_code[0]`
(`IndexError`); more than 26 strands hit `letter_list[26]` (`IndexError`);
`none` means the scan is still running after `fuel` iterations. -/
def findStrandsF (gc : List Int) (fuel : Nat) :
    Option (Except PyErr (List (Char × List Int))) :=
  if gc.isEmpty then some (Except.error PyErr.indexError)
  else
    match findStrandsLoop gc fuel 0 [] with
    | none => none
    | some strands =>
      if strands.length ≤ 26 then
        some (Except.ok (letterList.zip strands))
      else some (Except.error PyErr.indexError)

/-- The mutable scan state of the inner `for key_inner` loop of
`find_crossings`.  `u1`/`u2` model the Python locals `under1`/`under2`,
which live for the whole call and hence carry stale values from an earlier
crossing into a later one whose lookup fails. -/
structure CrossScan where
  found1 : Bool
  found2 : Bool
  u1 : Option Char
  u2 : Option Char
deriving Repr, DecidableEq

/-- One `for key_inner in knot_dict` scan: breaks once both sides are found,
otherwise overwrites `under1`/`under2` on every match. -/
def scanForUnder (v : Int) : List (Char × List Int) → CrossScan → CrossScan
  | [], st => st
  | (k, tup) :: rest, st =>
    if st.found1 && st.found2 then st
    else
      let st1 := if tup.head? = some (-v) then { st with found1 := true, u1 := some k } else st
      let st2 := if tup.getLast? = some (-v) then { st1 with found2 := true, u2 := some k } else st1
      scanForUnder v rest st2

/-- Process the entries of one strand's tuple inside `find_crossings`:
for each positive entry run the scan and append `(under1, under2)`.  Reading
a never-assigned local raises `UnboundLocalError`. -/
def strandCrossings (keys : List (Char × List Int)) :
    List Int → Option Char × Option Char → List (Char × Char) →
    Except PyErr (List (Char × Char) × (Option Char × Option Char))
  | [], u, acc => Except.ok (acc, u)
  | v :: rest, u, acc =>
    if v > 0 then
      let st := scanForUnder v keys { found1 := false, found2 := false, u1 := u.1, u2 := u.2 }
      match st.u1, st.u2 with
      | some a, some b => strandCrossings keys rest (some a, some b) (acc ++ [(a, b)])
      | _, _ => Except.error PyErr.unboundLocal
    else strandCrossings keys rest u acc

/-- Knot dictionary entry: strand name, its Gauss subsequence, and the
crossings it passes over. -/
abbrev KnotDict := List (Char × List Int × List (Char × Char))

/-- The outer `for key_outer` loop of `find_crossings`, threading the
function-scoped `under1`/`under2` between strands. -/
def findCrossingsLoop (keys : List (Char × List Int)) :
    List (Char × List Int) → Option Char × Option Char →
    Except PyErr KnotDict
  | [], _ => Except.ok []
  | (k, tup) :: rest, u =>
    match strandCrossings keys tup u [] with
    | Except.error e => Except.error e
    | Except.ok (cs, u2) =>
      match findCrossingsLoop keys rest u2 with
      | Except.error e => Except.error e
      | Except.ok tail => Except.ok ((k, tup, cs) :: tail)

/-- `find_crossings`: populate every strand's crossing list. -/
def findCrossings (strands : List (Char × List Int)) : Except PyErr KnotDict :=
  findCrossingsLoop strands strands (none, none)

/-- `create_knot_dictionary` = `find_strands` then `find_crossings`. -/
def createKnotDictionaryF (gc : List Int) (fuel : Nat) :
    Option (Except PyErr KnotDict) :=
  match findStrandsF gc fuel with
  | none => none
  | some (Except.error e) => some (Except.error e)
  | some (Except.ok strands) => some (findCrossings strands)

/-- The crossing list a strand is over (`knot_dict[strand][1]`). -/
def crossingsOf (kd : KnotDict) (s : Char) : List (Char × Char) :=
  match kd.find? (fun pr => pr.1 = s) with
  | some pr => pr.2.2
  | none => []

/-- The strand names, in dictionary insertion order. -/
def keysOf (kd : KnotDict) : List Char :=
  kd.map fun pr => pr.1

/-- All strand names occurring in any crossing pair of the dictionary. -/
def allMembers (kd : KnotDict) : List Char :=
  kd.flatMap fun pr => pr.2.2.flatMap fun c => [c.1, c.2]

/-- The state mutated by `maximally_extend`: the color partition
`strand_colors_dict` (insertion-ordered), the list `colored_strands`, and
the flag `new_coloring`. -/
structure ColorState where
  parts : List (Char × List Char)
  colored : List Char
  newColoring : Bool
deriving Repr, DecidableEq

/-- `find_color`: first color whose member list contains the strand
(`none` models the empty-string "uncolored" return). -/
def findColor (strand : Char) (parts : List (Char × List Char)) : Option Char :=
  (parts.find? fun pr => strand ∈ pr.2).map fun pr => pr.1

/-- `is_colored`: does any color's member list contain the strand? -/
def isColored (strand : Char) (parts : List (Char × List Char)) : Bool :=
  parts.any fun pr => strand ∈ pr.2

/-- `strand_colors_dict[color].append(x)`. -/
def appendToPart (parts : List (Char × List Char)) (color x : Char) :
    List (Char × List Char) :=
  parts.map fun pr => if pr.1 = color then (pr.1, pr.2 ++ [x]) else pr

/-- The member list stored under one color key of a partition. -/
def partsVal (parts : List (Char × List Char)) (color : Char) : List Char :=
  match parts.find? (fun pr => pr.1 = color) with
  | some pr => pr.2
  | none => []

/-- The member list of one color (`strand_colors_dict[color]`). -/
def partList (color : Char) (st : ColorState) : List Char :=
  partsVal st.parts color

/-- First-occurrence deduplication, matching Python `dict` key insertion. -/
def pyDedup (seen : List Char) : List Char → List Char
  | [] => []
  | x :: xs => if x ∈ seen then pyDedup seen xs else x :: pyDedup (x :: seen) xs

/-- The initial state of `maximally_extend`: each seed keyed to `[seed]`
(duplicate seeds collapse to one dictionary key), `colored_strands` a copy
of the seed tuple, and the loop flag set so at least one pass runs. -/
def initState (seeds : List Char) : ColorState :=
  { parts := (pyDedup [] seeds).map fun s => (s, [s])
    colored := seeds
    newColoring := true }

/-- One crossing inspection inside `maximally_extend`: color the uncolored
side when exactly one side is colored; do nothing when both or neither are.
When a side is in `colored_strands`, the color/parts sync invariant
(maintained from initialization) makes `find_color` succeed, so the `none`
branches are dead. -/
def processCrossing (st : ColorState) (c : Char × Char) : ColorState :=
  if c.1 ∈ st.colored ∧ c.2 ∉ st.colored then
    match findColor c.1 st.parts with
    | some color =>
      { parts := appendToPart st.parts color c.2
        colored := st.colored ++ [c.2]
        newColoring := true }
    | none => st
  else if c.1 ∉ st.colored ∧ c.2 ∈ st.colored then
    match findColor c.2 st.parts with
    | some color =>
      { parts := appendToPart st.parts color c.1
        colored := st.colored ++ [c.1]
        newColoring := true }
    | none => st
  else st

/-- The `for crossing in knot_dict[strand][1]` loop. -/
def processCrossings (kd : KnotDict) (strand : Char) (st : ColorState) : ColorState :=
  (crossingsOf kd strand).foldl processCrossing st

/-- The `for strand in strand_colors_dict[seed]` loop, by index: Python
iterates the live list, so elements appended to this color during the loop
are visited too.  One fuel unit per visited element. -/
def processPart (kd : KnotDict) (seed : Char) : Nat → Nat → ColorState → Option ColorState
  | 0, idx, st =>
    if idx < (partList seed st).length then none else some st
  | fuel + 1, idx, st =>
    if idx < (partList seed st).length then
      processPart kd seed fuel (idx + 1)
        (processCrossings kd ((partList seed st).getD idx 'A') st)
    else some st

/-- The `for seed in strand_colors_dict` loop: one full pass. -/
def processSeedsAux (kd : KnotDict) (pf : Nat) :
    List Char → ColorState → Option ColorState
  | [], st => some st
  | k :: rest, st =>
    match processPart kd k pf 0 st with
    | none => none
    | some st2 => processSeedsAux kd pf rest st2

/-- The `while new_coloring` loop: clear the flag, run a pass, repeat while
the pass set the flag again. -/
def extendLoop (kd : KnotDict) (pf : Nat) (keys : List Char) :
    Nat → ColorState → Option ColorState
  | 0, st => if st.newColoring then none else some st
  | fuel + 1, st =>
    if st.newColoring then
      match processSeedsAux kd pf keys { st with newColoring := false } with
      | none => none
      | some st2 => extendLoop kd pf keys fuel st2
    else some st

/-- Fuel sufficient for every part scan and for the pass count: the colored
list never exceeds the seeds plus the crossing members, so this bound is
enough for any input whatsoever. -/
def extFuel (kd : KnotDict) (seeds : List Char) : Nat :=
  seeds.length + (allMembers kd).length + 2

/-- `maximally_extend` with its loops run on a provably sufficient fuel. -/
def maximallyExtendF (seeds : List Char) (kd : KnotDict) : Option ColorState :=
  let st := initState seeds
  extendLoop kd (extFuel kd seeds) (st.parts.map fun pr => pr.1) (extFuel kd seeds) st

/-- `maximally_extend` as a total function; `maximallyExtendF` is proved to
return `some` on every input, so the fallback is never consulted. -/
def maximallyExtend (seeds : List Char) (kd : KnotDict) : ColorState :=
  (maximallyExtendF seeds kd).getD (initState seeds)

/-- `count_multicolored_crossings`: walk the partition's colored strands and
count crossings both of whose members are colored but in different parts. -/
def countMulticoloredCrossings (parts : List (Char × List Char)) (kd : KnotDict) : Nat :=
  parts.foldl
    (fun n pr =>
      pr.2.foldl
        (fun n strand =>
          (crossingsOf kd strand).foldl
            (fun n c =>
              if isColored c.1 parts ∧ isColored c.2 parts then
                match findColor c.1 parts with
                | some col =>
                  match parts.find? (fun q => q.1 = col) with
                  | some q => if c.2 ∉ q.2 then n + 1 else n
                  | none => n
                | none => n
              else n)
            n)
        n)
    0

/-- `itertools.combinations(l, r)`: all `r`-element subsequences of `l`, in
lexicographic order of positions. -/
def combinations (r : Nat) (l : List Char) : List (List Char) :=
  match r, l with
  | 0, _ => [[]]
  | _ + 1, [] => []
  | r + 1, x :: xs => (combinations r xs).map (fun c => x :: c) ++ combinations (r + 1) xs

/-- The colored-set union of a partition (`colored_set` in `calc`): every
strand of every part, in iteration order. -/
def coloredUnion (parts : List (Char × List Char)) : List Char :=
  parts.flatMap fun pr => pr.2

/-- `set(a) == set(b)` on lists. -/
def sameSet (a b : List Char) : Bool :=
  decide (∀ x ∈ a, x ∈ b) && decide (∀ x ∈ b, x ∈ a)

/-- The inner `for potential_seed in strands` loop of `calc`: try each
strand outside the colored set as a fourth seed; report whether some
extension colors every strand. -/
def tryExtensions (kd : KnotDict) (strands : List Char) (seeds : List Char)
    (coloredSet : List Char) : List Char → Bool
  | [] => false
  | p :: rest =>
    if p ∈ coloredSet then tryExtensions kd strands seeds coloredSet rest
    else
      let st2 := maximallyExtend (seeds ++ [p]) kd
      if sameSet (coloredUnion st2.parts) strands then true
      else tryExtensions kd strands seeds coloredSet rest

/-- The `for seeds in seeds_set` loop of `calc`: return `"28"` on the first
seed triple with a conflict whose one-strand extension covers everything,
else `"32"` after exhausting all triples. -/
def searchLoop (kd : KnotDict) (strands : List Char) : List (List Char) → String
  | [] => "32"
  | seeds :: rest =>
    let st := maximallyExtend seeds kd
    if countMulticoloredCrossings st.parts kd > 0 then
      if tryExtensions kd strands seeds (coloredUnion st.parts) strands then "28"
      else searchLoop kd strands rest
    else searchLoop kd strands rest

/-- `calc`: the whole pipeline.  The fuel feeds the `find_strands` scan
(whose loop really can diverge); the propagation loops run on their proven
bound. -/
def calcF (fuel : Nat) (raw : List String) : Option (Except PyErr String) :=
  match processGaussCode raw with
  | Except.error e => some (Except.error e)
  | Except.ok gc =>
    match createKnotDictionaryF gc fuel with
    | none => none
    | some (Except.error e) => some (Except.error e)
    | some (Except.ok kd) =>
      some (Except.ok (searchLoop kd (keysOf kd) (combinations 3 (keysOf kd))))

/-- Total number of crossing entries across the diagram. -/
def totalCrossings (kd : KnotDict) : Nat :=
  (kd.map fun pr => pr.2.2.length).sum

/-- The exact multicoloredness test performed by
`count_multicolored_crossings` on one crossing pair. -/
def multicoloredAt (parts : List (Char × List Char)) (c : Char × Char) : Bool :=
  if isColored c.1 parts ∧ isColored c.2 parts then
    match findColor c.1 parts with
    | some col =>
      match parts.find? (fun q => q.1 = col) with
      | some q => decide (c.2 ∉ q.2)
      | none => false
    | none => false
  else false

/-- From the spec's words: both members of the crossing pair are colored
(in any parts) but lie in different parts. -/
def bothColoredDifferentParts (parts : List (Char × List Char)) (c : Char × Char) : Bool :=
  isColored c.1 parts && isColored c.2 parts
    && decide (findColor c.1 parts ≠ findColor c.2 parts)

/-- From the spec's words (the claim's reading): count the multicolored
crossings of every strand of the diagram, regardless of whether the
crossing's over-strand is itself colored. -/
def specCountAllCrossings (parts : List (Char × List Char)) (kd : KnotDict) : Nat :=
  (kd.map fun pr => pr.2.2.countP (bothColoredDifferentParts parts)).sum

/-- The count the code actually computes, rephrased declaratively: only the
crossing lists of colored strands are examined. -/
def specCountColoredCrossings (parts : List (Char × List Char)) (kd : KnotDict) : Nat :=
  ((kd.filter fun pr => isColored pr.1 parts).map
    fun pr => pr.2.2.countP (bothColoredDifferentParts parts)).sum

/-- A set of strands is closed under the propagation rule of
`maximally_extend`: for every colored over-strand, a crossing pair with one
member in the set forces the other member in. -/
def ClosedUnder (kd : KnotDict) (S : Char → Prop) : Prop :=
  ∀ s, S s → ∀ c ∈ crossingsOf kd s, (S c.1 → S c.2) ∧ (S c.2 → S c.1)

/-- The success condition of the width search: some seed triple propagates
to a conflict, and adding one uncolored strand to it propagates to every
strand of the diagram. -/
def widthSuccess (kd : KnotDict) : Prop :=
  ∃ seeds ∈ combinations 3 (keysOf kd),
    0 < countMulticoloredCrossings (maximallyExtend seeds kd).parts kd ∧
    ∃ p ∈ keysOf kd, p ∉ coloredUnion (maximallyExtend seeds kd).parts ∧
      sameSet (coloredUnion (maximallyExtend (seeds ++ [p]) kd).parts) (keysOf kd) = true

/-- The positions of the under-passes (negative entries) of a Gauss code. -/
def negPositions (gc : List Int) : List Nat :=
  (List.range gc.length).filter fun p => gcAt gc p < 0

/-- Well-formed Gauss code in the data-model sense: nonempty, entries
nonzero, and every entry occurs exactly once with each sign. -/
def WellFormedGauss (gc : List Int) : Prop :=
  gc ≠ [] ∧ ∀ x ∈ gc, x ≠ 0 ∧ gc.count x = 1 ∧ -x ∈ gc

/-- The strand recorded by the scan when it begins at position `b`. -/
def strandFrom (gc : List Int) (b : Nat) : List Int :=
  strandSlice gc b (nextUnderIdx gc ((b + 1) % gc.length))

/-- The slices cut by consecutive scan stops: one strand per adjacent pair
of under-pass positions. -/
def consecSlices (gc : List Int) : Nat → List Nat → List (List Int)
  | _, [] => []
  | b, q :: rest => strandSlice gc b q :: consecSlices gc q rest

/-- The invariant maintained by every step of `maximally_extend`: the
dictionary keys never change; `colored_strands` and the union of the color
parts list the same strands; `colored_strands` is duplicate-free; every
part is duplicate-free; parts are pairwise disjoint; and every colored
strand comes from the ambient universe (seeds plus crossing members). -/
structure StOk (keys univ : List Char) (st : ColorState) : Prop where
  keysEq : st.parts.map (fun pr => pr.1) = keys
  sync : ∀ x, x ∈ st.parts.flatMap (fun pr => pr.2) ↔ x ∈ st.colored
  nodupColored : st.colored.Nodup
  nodupParts : ∀ pr ∈ st.parts, pr.2.Nodup
  disj : st.parts.Pairwise fun a b => ∀ x ∈ a.2, x ∉ b.2
  coloredSub : ∀ x ∈ st.colored, x ∈ univ

/-- Propagation only ever appends: the colored list and every color part of
the later state extend those of the earlier one. -/
structure Grows (st st' : ColorState) : Prop where
  colored : ∃ t, st'.colored = st.colored ++ t
  parts : ∀ col, ∃ t, partList col st' = partList col st ++ t

/-- A knot dictionary is key-closed when every strand named in a crossing
pair is itself a dictionary key (true of every dictionary the pipeline
builds; without it the Python loops would raise `KeyError`). -/
def WFDict (kd : KnotDict) : Prop :=
  ∀ pr ∈ kd, ∀ c ∈ pr.2.2, c.1 ∈ keysOf kd ∧ c.2 ∈ keysOf kd

/-! ## Generic counting helpers -/

theorem foldl_if_count {α : Type} (p : α → Bool) (f : Nat → α → Nat)
    (hf : ∀ n a, f n a = if p a then n + 1 else n) :
    ∀ (l : List α) (n : Nat), l.foldl f n = n + l.countP p := by
  intro l
  induction l with
  | nil => intro n; simp [List.countP_nil]
  | cons a t ih =>
    intro n
    rw [List.foldl_cons, hf, List.countP_cons]
    cases hpa : p a
    · simp only [hpa, Bool.false_eq_true, if_false, Nat.add_zero]
      exact ih n
    · simp only [hpa, if_true]
      rw [ih]
      omega

theorem foldl_add_shift {α : Type} (g : α → Nat) (f : Nat → α → Nat)
    (hf : ∀ n a, f n a = n + g a) :
    ∀ (l : List α) (n : Nat), l.foldl f n = n + (l.map g).sum := by
  intro l
  induction l with
  | nil => intro n; simp
  | cons a t ih =>
    intro n
    rw [List.foldl_cons, hf, ih, List.map_cons, List.sum_cons]
    omega

/-! ## `count_multicolored_crossings` -/

theorem countMulti_eq_sum (parts : List (Char × List Char)) (kd : KnotDict) :
    countMulticoloredCrossings parts kd
      = ((coloredUnion parts).map
          fun s => (crossingsOf kd s).countP (multicoloredAt parts)).sum := by
  unfold countMulticoloredCrossings
  have hinner : ∀ (s : Char) (n : Nat),
      (crossingsOf kd s).foldl
        (fun n c =>
          if isColored c.1 parts ∧ isColored c.2 parts then
            match findColor c.1 parts with
            | some col =>
              match parts.find? (fun q => q.1 = col) with
              | some q => if c.2 ∉ q.2 then n + 1 else n
              | none => n
            | none => n
          else n)
        n
      = n + (crossingsOf kd s).countP (multicoloredAt parts) := by
    intro s n
    refine foldl_if_count (multicoloredAt parts) _ ?_ (crossingsOf kd s) n
    intro n c
    unfold multicoloredAt
    by_cases h : isColored c.1 parts = true ∧ isColored c.2 parts = true
    · simp only [if_pos h]
      cases hfc : findColor c.1 parts with
      | none => simp [hfc]
      | some col =>
        cases hfq : parts.find? (fun q => q.1 = col) with
        | none => simp [hfq]
        | some q =>
          by_cases hm : c.2 ∈ q.2
          · simp [hfq, hm]
          · simp [hfq, hm]
    · simp only [if_neg h]
      simp
  have hmid : ∀ (pr : Char × List Char) (n : Nat),
      pr.2.foldl
        (fun n strand =>
          (crossingsOf kd strand).foldl
            (fun n c =>
              if isColored c.1 parts ∧ isColored c.2 parts then
                match findColor c.1 parts with
                | some col =>
                  match parts.find? (fun q => q.1 = col) with
                  | some q => if c.2 ∉ q.2 then n + 1 else n
                  | none => n
                | none => n
              else n)
            n)
        n
      = n + (pr.2.map fun s => (crossingsOf kd s).countP (multicoloredAt parts)).sum := by
    intro pr n
    exact foldl_add_shift _ _ (fun n s => hinner s n) pr.2 n
  have houter :
      parts.foldl
        (fun n pr =>
          pr.2.foldl
            (fun n strand =>
              (crossingsOf kd strand).foldl
                (fun n c =>
                  if isColored c.1 parts ∧ isColored c.2 parts then
                    match findColor c.1 parts with
                    | some col =>
                      match parts.find? (fun q => q.1 = col) with
                      | some q => if c.2 ∉ q.2 then n + 1 else n
                      | none => n
                    | none => n
                  else n)
                n)
            n)
        0
      = 0 + (parts.map
          fun pr => (pr.2.map fun s => (crossingsOf kd s).countP (multicoloredAt parts)).sum).sum :=
    foldl_add_shift _ _ (fun n pr => hmid pr n) parts 0
  rw [houter]
  unfold coloredUnion
  rw [List.map_flatMap, List.flatMap_def, List.sum_flatten, List.map_map]
  simp [Function.comp_def]

theorem isColored_iff (x : Char) (parts : List (Char × List Char)) :
    isColored x parts = true ↔ ∃ pr ∈ parts, x ∈ pr.2 := by
  unfold isColored
  rw [List.any_eq_true]
  constructor
  · rintro ⟨pr, hmem, hp⟩
    exact ⟨pr, hmem, by simpa using hp⟩
  · rintro ⟨pr, hmem, hp⟩
    exact ⟨pr, hmem, by simpa using hp⟩

theorem findColor_eq_of_mem_of_disjoint {parts : List (Char × List Char)}
    (hdisj : parts.Pairwise fun a b => ∀ x ∈ a.2, x ∉ b.2)
    {pr : Char × List Char} (hpr : pr ∈ parts) {x : Char} (hx : x ∈ pr.2) :
    findColor x parts = some pr.1 := by
  unfold findColor
  induction parts with
  | nil => cases hpr
  | cons a t ih =>
    rcases List.mem_cons.mp hpr with h | h
    · subst h
      simp [List.find?_cons, hx]
    · have hnot : x ∉ a.2 := by
        intro hxa
        exact (List.rel_of_pairwise_cons hdisj h) x hxa hx
      have : (decide (x ∈ a.2)) = false := by simpa using hnot
      simp only [List.find?_cons, this]
      exact ih (List.Pairwise.sublist (List.sublist_cons_self a t) hdisj) h

theorem find?_key_eq_of_nodup {β : Type} {parts : List (Char × β)}
    (hkeys : (parts.map fun pr => pr.1).Nodup)
    {pr : Char × β} (hpr : pr ∈ parts) :
    parts.find? (fun q => q.1 = pr.1) = some pr := by
  induction parts with
  | nil => cases hpr
  | cons a t ih =>
    rcases List.mem_cons.mp hpr with h | h
    · subst h
      simp [List.find?_cons]
    · have hne : a.1 ≠ pr.1 := by
        intro he
        have : pr.1 ∈ t.map fun q => q.1 := List.mem_map_of_mem _ h
        rw [← he] at this
        exact (List.nodup_cons.mp (by simpa using hkeys)).1 this
      have : (decide (a.1 = pr.1)) = false := by simpa using hne
      simp only [List.find?_cons, this]
      exact ih (List.nodup_cons.mp (by simpa using hkeys)).2 h

theorem multicoloredAt_eq_bcdp {parts : List (Char × List Char)}
    (hkeys : (parts.map fun pr => pr.1).Nodup)
    (hdisj : parts.Pairwise fun a b => ∀ x ∈ a.2, x ∉ b.2)
    (c : Char × Char) :
    multicoloredAt parts c = bothColoredDifferentParts parts c := by
  unfold multicoloredAt bothColoredDifferentParts
  by_cases h1 : isColored c.1 parts = true
  · by_cases h2 : isColored c.2 parts = true
    · rw [if_pos ⟨h1, h2⟩]
      obtain ⟨pr1, hpr1, hin1⟩ := (isColored_iff c.1 parts).mp h1
      obtain ⟨pr2, hpr2, hin2⟩ := (isColored_iff c.2 parts).mp h2
      have hf1 : findColor c.1 parts = some pr1.1 :=
        findColor_eq_of_mem_of_disjoint hdisj hpr1 hin1
      have hf2 : findColor c.2 parts = some pr2.1 :=
        findColor_eq_of_mem_of_disjoint hdisj hpr2 hin2
      have hq : parts.find? (fun q => q.1 = pr1.1) = some pr1 :=
        find?_key_eq_of_nodup hkeys hpr1
      have hiff : c.2 ∉ pr1.2 ↔ pr1.1 ≠ pr2.1 := by
        constructor
        · intro hno he
          have hpr12 : pr1 = pr2 := by
            have h1' := find?_key_eq_of_nodup hkeys hpr1
            have h2' := find?_key_eq_of_nodup hkeys hpr2
            rw [he] at h1'
            rw [h1'] at h2'
            exact Option.some.inj h2'
          rw [hpr12] at hno
          exact hno hin2
        · intro hne hmem
          exact hne (by
            have := findColor_eq_of_mem_of_disjoint hdisj hpr1 hmem
            rw [this] at hf2
            exact Option.some.inj hf2)
      rw [hf1, hf2]
      simp only [hq, h1, h2, Bool.true_and]
      rw [decide_eq_decide]
      constructor
      · intro hno he
        exact hiff.mp hno (Option.some.inj he)
      · intro hne
        exact hiff.mpr fun he => hne (congrArg some he)
    · rw [if_neg (by intro hc; exact h2 hc.2)]
      have : isColored c.2 parts = false := by simpa using h2
      simp [this]
  · rw [if_neg (by intro hc; exact h1 hc.1)]
    have : isColored c.1 parts = false := by simpa using h1
    simp [this]

theorem crossingsOf_eq_of_mem {kd : KnotDict} (hkeys : (keysOf kd).Nodup)
    {pr : Char × List Int × List (Char × Char)} (hpr : pr ∈ kd) :
    crossingsOf kd pr.1 = pr.2.2 := by
  unfold crossingsOf
  rw [find?_key_eq_of_nodup hkeys hpr]

theorem countMulti_eq_specColored {parts : List (Char × List Char)} {kd : KnotDict}
    (hkeys : (parts.map fun pr => pr.1).Nodup)
    (hdisj : parts.Pairwise fun a b => ∀ x ∈ a.2, x ∉ b.2)
    (hparts : ∀ pr ∈ parts, pr.2.Nodup)
    (hsub : ∀ pr ∈ parts, ∀ s ∈ pr.2, s ∈ keysOf kd)
    (hkd : (keysOf kd).Nodup) :
    countMulticoloredCrossings parts kd = specCountColoredCrossings parts kd := by
  rw [countMulti_eq_sum]
  have hfun : multicoloredAt parts = bothColoredDifferentParts parts :=
    funext (multicoloredAt_eq_bcdp hkeys hdisj)
  rw [hfun]
  have hnodupU : (coloredUnion parts).Nodup := by
    unfold coloredUnion
    rw [List.flatMap_def, List.nodup_flatten]
    constructor
    · intro l hl
      obtain ⟨pr, hpr, rfl⟩ := List.mem_map.mp hl
      exact hparts pr hpr
    · rw [List.pairwise_map]
      refine hdisj.imp ?_
      intro a b hab x hxa hxb
      exact hab x hxa hxb
  have hnodupF : ((keysOf kd).filter fun k => isColored k parts).Nodup :=
    hkd.filter _
  have hperm : (coloredUnion parts).Perm
      ((keysOf kd).filter fun k => isColored k parts) := by
    rw [List.perm_ext_iff_of_nodup hnodupU hnodupF]
    intro x
    constructor
    · intro hx
      obtain ⟨pr, hpr, hxpr⟩ := List.mem_flatMap.mp hx
      refine List.mem_filter.mpr ⟨hsub pr hpr x hxpr, ?_⟩
      exact (isColored_iff x parts).mpr ⟨pr, hpr, hxpr⟩
    · intro hx
      obtain ⟨pr, hpr, hxpr⟩ := (isColored_iff x parts).mp (List.mem_filter.mp hx).2
      exact List.mem_flatMap.mpr ⟨pr, hpr, hxpr⟩
  rw [(hperm.map fun s =>
      (crossingsOf kd s).countP (bothColoredDifferentParts parts)).sum_eq]
  unfold specCountColoredCrossings keysOf
  rw [List.filter_map]
  rw [List.map_map]
  refine congrArg List.sum (List.map_congr_left ?_)
  intro pr hpr
  have hmem : pr ∈ kd := List.mem_of_mem_filter hpr
  simp only [Function.comp]
  rw [crossingsOf_eq_of_mem hkd hmem]

theorem specColored_le_total (parts : List (Char × List Char)) (kd : KnotDict) :
    specCountColoredCrossings parts kd ≤ totalCrossings kd := by
  unfold specCountColoredCrossings totalCrossings
  calc ((kd.filter fun pr => isColored pr.1 parts).map
          fun pr => pr.2.2.countP (bothColoredDifferentParts parts)).sum
      ≤ ((kd.filter fun pr => isColored pr.1 parts).map fun pr => pr.2.2.length).sum := by
        refine List.sum_le_sum ?_
        intro pr _
        exact List.countP_le_length _
    _ ≤ (kd.map fun pr => pr.2.2.length).sum := by
        refine List.Sublist.sum_le_sum ?_ ?_
        · exact (List.filter_sublist kd).map _
        · intro a _
          exact Nat.zero_le a

/-! ## Claims C2, C3, C4, C5 -/

/-- **C2** (counterexample): the claim says the count is taken over all
crossings "regardless of whether the crossing's over-strand is itself
colored".  In the code the crossing lists of uncolored strands are never
examined: with parts `A ↦ [A]`, `B ↦ [B]` and a diagram whose only crossing
`(A, B)` lies on the uncolored strand `C`, the code counts `0` crossings
while the claimed reading counts `1`. -/
theorem claim2_over_strand_counterexample :
    countMulticoloredCrossings [('A', ['A']), ('B', ['B'])]
        [('A', ([], [])), ('B', ([], [])), ('C', ([], [('A', 'B')]))] = 0
    ∧ specCountAllCrossings [('A', ['A']), ('B', ['B'])]
        [('A', ([], [])), ('B', ([], [])), ('C', ([], [('A', 'B')]))] = 1 :=
  ⟨rfl, rfl⟩

/-- **C2** (amended): for every color partition with pairwise-disjoint,
duplicate-free parts over the diagram's strands, `count_multicolored_crossings`
returns exactly the number of crossing occurrences in the crossing lists of
the *colored* strands whose two members are both colored but lie in
different parts, and the result lies between `0` and the diagram's total
crossing count.  (The function is a pure fold; it mutates nothing.) -/
theorem claim2_count_colored_crossings {parts : List (Char × List Char)} {kd : KnotDict}
    (hkeys : (parts.map fun pr => pr.1).Nodup)
    (hdisj : parts.Pairwise fun a b => ∀ x ∈ a.2, x ∉ b.2)
    (hparts : ∀ pr ∈ parts, pr.2.Nodup)
    (hsub : ∀ pr ∈ parts, ∀ s ∈ pr.2, s ∈ keysOf kd)
    (hkd : (keysOf kd).Nodup) :
    countMulticoloredCrossings parts kd = specCountColoredCrossings parts kd
    ∧ countMulticoloredCrossings parts kd ≤ totalCrossings kd := by
  have he := countMulti_eq_specColored hkeys hdisj hparts hsub hkd
  exact ⟨he, he ▸ specColored_le_total parts kd⟩

/-- **C2** (witness): the amended count theorem applied to the three-strand
trefoil-style diagram with parts `A ↦ [A, C]`, `B ↦ [B]`. -/
theorem claim2_count_witness :
    countMulticoloredCrossings [('A', ['A', 'C']), ('B', ['B'])]
        [('A', [-1, 2, -3], [('C', 'B')]), ('B', [-3, 1, -2], [('A', 'C')]),
         ('C', [-2, 3, -1], [('B', 'A')])]
      = specCountColoredCrossings [('A', ['A', 'C']), ('B', ['B'])]
        [('A', [-1, 2, -3], [('C', 'B')]), ('B', [-3, 1, -2], [('A', 'C')]),
         ('C', [-2, 3, -1], [('B', 'A')])]
    ∧ countMulticoloredCrossings [('A', ['A', 'C']), ('B', ['B'])]
        [('A', [-1, 2, -3], [('C', 'B')]), ('B', [-3, 1, -2], [('A', 'C')]),
         ('C', [-2, 3, -1], [('B', 'A')])]
      ≤ totalCrossings
        [('A', [-1, 2, -3], [('C', 'B')]), ('B', [-3, 1, -2], [('A', 'C')]),
         ('C', [-2, 3, -1], [('B', 'A')])] :=
  claim2_count_colored_crossings (by decide) (by decide) (by decide) (by decide) (by decide)

/-- **C3** (counterexample): on the Gauss code `[-1, 2, -3, 1, -2, 3]` the
decomposition does produce exactly 3 strands, but each strand tuple has 3
elements (under-pass, over-pass, under-pass), not 2 as the claim states. -/
theorem claim3_two_element_counterexample :
    findStrandsF [-1, 2, -3, 1, -2, 3] 30
      = some (Except.ok [('A', [-1, 2, -3]), ('B', [-3, 1, -2]), ('C', [-2, 3, -1])])
    ∧ ¬ (∀ pr ∈ [('A', ([-1, 2, -3] : List Int)), ('B', [-3, 1, -2]), ('C', [-2, 3, -1])],
          pr.2.length = 2) :=
  ⟨rfl, by decide⟩

/-- **C3** (amended): for the Gauss code `[-1, 2, -3, 1, -2, 3]` the
pipeline parses without `ValueError`, decomposes into exactly as many
strands as there are under-passes (3), each strand a 3-element tuple,
raises no diagram-level fault, and returns the string `"32"` — a fixed
value of a pure function, hence identical across repeated runs. -/
theorem claim3_minimal_pipeline :
    processGaussCode ["-1", "2", "-3", "1", "-2", "3"] = Except.ok [-1, 2, -3, 1, -2, 3]
    ∧ findStrandsF [-1, 2, -3, 1, -2, 3] 30
        = some (Except.ok [('A', [-1, 2, -3]), ('B', [-3, 1, -2]), ('C', [-2, 3, -1])])
    ∧ (∀ pr ∈ [('A', ([-1, 2, -3] : List Int)), ('B', [-3, 1, -2]), ('C', [-2, 3, -1])],
        pr.2.length = 3)
    ∧ calcF 30 ["-1", "2", "-3", "1", "-2", "3"] = some (Except.ok "32") :=
  ⟨rfl, rfl, by decide, rfl⟩

/-- **C4**: the claim requires a `DiagramError` when the diagram has fewer
than 3 strands.  The code instead builds a 1-strand dictionary from
`[-1, 1]`, iterates over the empty list of 3-element seed subsets, and
silently returns `"32"`. -/
theorem claim4_silently_returns_32 :
    createKnotDictionaryF [-1, 1] 30 = some (Except.ok [('A', [-1], [])])
    ∧ (keysOf [('A', ([-1] : List Int), ([] : List (Char × Char)))]).length = 1
    ∧ calcF 30 ["-1", "1"] = some (Except.ok "32") :=
  ⟨rfl, rfl, rfl⟩

/-- **C5**: the claim requires an explicit `DiagramError` when crossing
resolution finds no matching under-strand.  On `[-1, 2, -2, 1, 5]` the
over-entry `5` matches no strand (no tuple starts or ends with `-5`), yet
`find_crossings` silently appends the stale pair `('A', 'B')` left over from
resolving the previous crossing — the dictionary is returned without any
error.  On `[-1, 2, -1]` the very first unresolvable crossing reads the
never-assigned locals instead, an opaque `UnboundLocalError`. -/
theorem claim5_stale_reuse_and_unbound_local :
    createKnotDictionaryF [-1, 2, -2, 1, 5] 30
      = some (Except.ok [('A', [-1, 2, -2], [('B', 'A')]),
                          ('B', [-2, 1, 5, -1], [('A', 'B'), ('A', 'B')])])
    ∧ (∀ tup ∈ [([-1, 2, -2] : List Int), [-2, 1, 5, -1]],
        tup.head? ≠ some (-5) ∧ tup.getLast? ≠ some (-5))
    ∧ createKnotDictionaryF [-1, 2, -1] 30 = some (Except.error PyErr.unboundLocal) :=
  ⟨rfl, by decide, rfl⟩

/-! ## Structural lemmas about one propagation step -/

theorem Grows.refl (st : ColorState) : Grows st st :=
  ⟨⟨[], by simp⟩, fun _ => ⟨[], by simp⟩⟩

theorem Grows.trans {a b c : ColorState} (h1 : Grows a b) (h2 : Grows b c) : Grows a c := by
  refine ⟨?_, ?_⟩
  · obtain ⟨t1, ht1⟩ := h1.colored
    obtain ⟨t2, ht2⟩ := h2.colored
    exact ⟨t1 ++ t2, by rw [ht2, ht1, List.append_assoc]⟩
  · intro col
    obtain ⟨t1, ht1⟩ := h1.parts col
    obtain ⟨t2, ht2⟩ := h2.parts col
    exact ⟨t1 ++ t2, by rw [ht2, ht1, List.append_assoc]⟩

theorem Grows.colored_length {a b : ColorState} (h : Grows a b) :
    a.colored.length ≤ b.colored.length := by
  obtain ⟨t, ht⟩ := h.colored
  rw [ht, List.length_append]
  omega

theorem Grows.colored_mem {a b : ColorState} (h : Grows a b) {x : Char}
    (hx : x ∈ a.colored) : x ∈ b.colored := by
  obtain ⟨t, ht⟩ := h.colored
  rw [ht]
  exact List.mem_append_left t hx

theorem Grows.eq_of_colored_length {a b : ColorState} (h : Grows a b)
    (hl : b.colored.length ≤ a.colored.length) : b.colored = a.colored := by
  obtain ⟨t, ht⟩ := h.colored
  rw [ht] at hl ⊢
  rw [List.length_append] at hl
  have : t = [] := List.eq_nil_of_length_eq_zero (by omega)
  rw [this, List.append_nil]

theorem appendToPart_keys (parts : List (Char × List Char)) (col x : Char) :
    (appendToPart parts col x).map (fun pr => pr.1) = parts.map fun pr => pr.1 := by
  unfold appendToPart
  rw [List.map_map]
  refine List.map_congr_left ?_
  intro pr _
  by_cases h : pr.1 = col
  · simp [h]
  · simp [h]

theorem appendToPart_cons (a : Char × List Char) (rest : List (Char × List Char))
    (col x : Char) :
    appendToPart (a :: rest) col x
      = (if a.1 = col then (a.1, a.2 ++ [x]) else a) :: appendToPart rest col x := rfl

theorem partsVal_cons (a : Char × List Char) (rest : List (Char × List Char)) (col : Char) :
    partsVal (a :: rest) col = if a.1 = col then a.2 else partsVal rest col := by
  unfold partsVal
  rw [List.find?_cons]
  by_cases h : a.1 = col
  · simp [h]
  · simp [h]

theorem mem_flatMap_appendToPart {parts : List (Char × List Char)} {col x y : Char} :
    y ∈ (appendToPart parts col x).flatMap (fun pr => pr.2)
      ↔ y ∈ parts.flatMap (fun pr => pr.2) ∨ (y = x ∧ ∃ pr ∈ parts, pr.1 = col) := by
  unfold appendToPart
  rw [List.mem_flatMap, List.mem_flatMap]
  constructor
  · rintro ⟨pr', hpr', hy⟩
    obtain ⟨pr, hpr, rfl⟩ := List.mem_map.mp hpr'
    by_cases h : pr.1 = col
    · rw [if_pos h] at hy
      rcases List.mem_append.mp hy with hmem | hmem
      · exact Or.inl ⟨pr, hpr, hmem⟩
      · exact Or.inr ⟨List.mem_singleton.mp hmem, pr, hpr, h⟩
    · rw [if_neg h] at hy
      exact Or.inl ⟨pr, hpr, hy⟩
  · rintro (⟨pr, hpr, hy⟩ | ⟨hyx, pr, hpr, hcol⟩)
    · refine ⟨if pr.1 = col then (pr.1, pr.2 ++ [x]) else pr, List.mem_map_of_mem _ hpr, ?_⟩
      by_cases h : pr.1 = col
      · rw [if_pos h]
        exact List.mem_append_left _ hy
      · rw [if_neg h]
        exact hy
    · refine ⟨(pr.1, pr.2 ++ [x]), ?_, ?_⟩
      · have : (if pr.1 = col then (pr.1, pr.2 ++ [x]) else pr) = (pr.1, pr.2 ++ [x]) := by
          rw [if_pos hcol]
        exact this ▸ List.mem_map_of_mem _ hpr
      · rw [hyx]
        simp

theorem partsVal_appendToPart_grows (parts : List (Char × List Char)) (col x col' : Char) :
    ∃ t, partsVal (appendToPart parts col x) col' = partsVal parts col' ++ t := by
  induction parts with
  | nil => exact ⟨[], rfl⟩
  | cons a rest ih =>
    by_cases hc : a.1 = col
    · by_cases h : a.1 = col'
      · refine ⟨[x], ?_⟩
        rw [appendToPart_cons, if_pos hc, partsVal_cons, partsVal_cons]
        simp [h, hc]
      · obtain ⟨t, ht⟩ := ih
        refine ⟨t, ?_⟩
        rw [appendToPart_cons, if_pos hc, partsVal_cons, partsVal_cons]
        simp [h, ht]
    · by_cases h : a.1 = col'
      · refine ⟨[], ?_⟩
        rw [appendToPart_cons, if_neg hc, partsVal_cons, partsVal_cons]
        simp [h]
      · obtain ⟨t, ht⟩ := ih
        refine ⟨t, ?_⟩
        rw [appendToPart_cons, if_neg hc, partsVal_cons, partsVal_cons]
        simp [h, ht]

theorem findColor_some_mem {x : Char} {parts : List (Char × List Char)} {col : Char}
    (h : findColor x parts = some col) : ∃ pr ∈ parts, pr.1 = col ∧ x ∈ pr.2 := by
  unfold findColor at h
  obtain ⟨pr, hfind, hcol⟩ := Option.map_eq_some'.mp h
  exact ⟨pr, List.mem_of_find?_eq_some hfind, hcol, by simpa using List.find?_some hfind⟩

theorem findColor_isSome_of_mem_flatMap {x : Char} {parts : List (Char × List Char)}
    (h : x ∈ parts.flatMap fun pr => pr.2) : ∃ col, findColor x parts = some col := by
  obtain ⟨pr, hpr, hx⟩ := List.mem_flatMap.mp h
  unfold findColor
  have : (parts.find? fun pr => x ∈ pr.2).isSome = true := by
    rw [List.find?_isSome]
    exact ⟨pr, hpr, by simpa using hx⟩
  obtain ⟨q, hq⟩ := Option.isSome_iff_exists.mp this
  exact ⟨q.1, by rw [hq]; rfl⟩

theorem processCrossing_cases (st : ColorState) (c : Char × Char) :
    processCrossing st c = st
    ∨ ∃ z col,
        ((z = c.2 ∧ c.1 ∈ st.colored ∧ c.2 ∉ st.colored ∧ findColor c.1 st.parts = some col)
          ∨ (z = c.1 ∧ c.1 ∉ st.colored ∧ c.2 ∈ st.colored ∧ findColor c.2 st.parts = some col))
        ∧ processCrossing st c =
            { parts := appendToPart st.parts col z
              colored := st.colored ++ [z]
              newColoring := true } := by
  unfold processCrossing
  by_cases h1 : c.1 ∈ st.colored ∧ c.2 ∉ st.colored
  · rw [if_pos h1]
    cases hf : findColor c.1 st.parts with
    | none => exact Or.inl rfl
    | some col => exact Or.inr ⟨c.2, col, Or.inl ⟨rfl, h1.1, h1.2, rfl⟩, rfl⟩
  · rw [if_neg h1]
    by_cases h2 : c.1 ∉ st.colored ∧ c.2 ∈ st.colored
    · rw [if_pos h2]
      cases hf : findColor c.2 st.parts with
      | none => exact Or.inl rfl
      | some col => exact Or.inr ⟨c.1, col, Or.inr ⟨rfl, h2.1, h2.2, rfl⟩, rfl⟩
    · rw [if_neg h2]
      exact Or.inl rfl

theorem processCrossing_grows (st : ColorState) (c : Char × Char) :
    Grows st (processCrossing st c) := by
  rcases processCrossing_cases st c with h | ⟨z, col, _, heq⟩
  · rw [h]
    exact Grows.refl st
  · rw [heq]
    refine ⟨⟨[z], rfl⟩, ?_⟩
    intro col'
    exact partsVal_appendToPart_grows st.parts col z col'

theorem processCrossing_flag_mono {st : ColorState} {c : Char × Char}
    (h : st.newColoring = true) : (processCrossing st c).newColoring = true := by
  rcases processCrossing_cases st c with he | ⟨z, col, _, heq⟩
  · rw [he]; exact h
  · rw [heq]

theorem processCrossing_flag_or_grow (st : ColorState) (c : Char × Char) :
    (processCrossing st c).newColoring = true →
      st.newColoring = true ∨ st.colored.length < (processCrossing st c).colored.length := by
  rcases processCrossing_cases st c with he | ⟨z, col, _, heq⟩
  · rw [he]
    exact fun h => Or.inl h
  · rw [heq]
    intro _
    right
    simp

theorem processCrossing_nc_false {st : ColorState} {c : Char × Char}
    (h : (processCrossing st c).newColoring = false) :
    processCrossing st c = st ∧ st.newColoring = false := by
  rcases processCrossing_cases st c with he | ⟨z, col, _, heq⟩
  · rw [he] at h ⊢
    exact ⟨rfl, h⟩
  · rw [heq] at h
    cases h

theorem processCrossing_both_colored {st : ColorState} {c : Char × Char}
    (h1 : c.1 ∈ st.colored) (h2 : c.2 ∈ st.colored) :
    processCrossing st c = st := by
  unfold processCrossing
  rw [if_neg (by intro hc; exact hc.2 h2), if_neg (by intro hc; exact hc.1 h1)]

theorem StOk.partsKeysNodup {keys univ : List Char} {st : ColorState}
    (h : StOk keys univ st) (hknd : keys.Nodup) :
    (st.parts.map fun pr => pr.1).Nodup := by
  rw [h.keysEq]
  exact hknd

theorem StOk.part_sub_colored {keys univ : List Char} {st : ColorState}
    (h : StOk keys univ st) {pr : Char × List Char} (hpr : pr ∈ st.parts) :
    ∀ x ∈ pr.2, x ∈ st.colored := by
  intro x hx
  exact (h.sync x).mp (List.mem_flatMap.mpr ⟨pr, hpr, hx⟩)

theorem StOk_processCrossing {keys univ : List Char} {st : ColorState} {c : Char × Char}
    (h : StOk keys univ st) (hknd : keys.Nodup)
    (hc1 : c.1 ∈ univ) (hc2 : c.2 ∈ univ) :
    StOk keys univ (processCrossing st c) := by
  rcases processCrossing_cases st c with he | ⟨z, col, hz, heq⟩
  · rw [he]
    exact h
  · have hzuniv : z ∈ univ := by
      rcases hz with ⟨rfl, _, _, _⟩ | ⟨rfl, _, _, _⟩
      · exact hc2
      · exact hc1
    have hznc : z ∉ st.colored := by
      rcases hz with ⟨rfl, _, hn, _⟩ | ⟨rfl, hn, _, _⟩
      · exact hn
      · exact hn
    have hcolmem : ∃ pr ∈ st.parts, pr.1 = col := by
      rcases hz with ⟨_, _, _, hf⟩ | ⟨_, _, _, hf⟩
      · obtain ⟨pr, hpr, hcol, _⟩ := findColor_some_mem hf
        exact ⟨pr, hpr, hcol⟩
      · obtain ⟨pr, hpr, hcol, _⟩ := findColor_some_mem hf
        exact ⟨pr, hpr, hcol⟩
    rw [heq]
    refine ⟨?_, ?_, ?_, ?_, ?_, ?_⟩
    · rw [appendToPart_keys]
      exact h.keysEq
    · intro x
      rw [mem_flatMap_appendToPart]
      simp only [List.mem_append, List.mem_singleton]
      constructor
      · rintro (hx | ⟨rfl, _⟩)
        · exact Or.inl ((h.sync x).mp hx)
        · exact Or.inr rfl
      · rintro (hx | rfl)
        · exact Or.inl ((h.sync x).mpr hx)
        · exact Or.inr ⟨rfl, hcolmem⟩
    · exact h.nodupColored.append (List.nodup_singleton z)
        (by intro y hy hyz; rw [List.mem_singleton.mp hyz] at hy; exact hznc hy)
    · intro pr' hpr'
      obtain ⟨pr, hpr, rfl⟩ := List.mem_map.mp hpr'
      by_cases hk : pr.1 = col
      · rw [if_pos hk]
        refine (h.nodupParts pr hpr).append (List.nodup_singleton z) ?_
        intro y hy hyz
        rw [List.mem_singleton.mp hyz] at hy
        exact hznc (h.part_sub_colored hpr z hy)
      · rw [if_neg hk]
        exact h.nodupParts pr hpr
    · have hkne : st.parts.Pairwise fun a b => a.1 ≠ b.1 := by
        have hnp := h.partsKeysNodup hknd
        exact List.pairwise_map.mp hnp
      have hcomb := h.disj.and hkne
      unfold appendToPart
      rw [List.pairwise_map]
      refine hcomb.imp_of_mem ?_
      intro a b ha hb hab
      obtain ⟨hdisj, hne⟩ := hab
      intro y hy
      have hya : y ∈ a.2 ∨ (a.1 = col ∧ y = z) := by
        by_cases hk : a.1 = col
        · rw [if_pos hk] at hy
          rcases List.mem_append.mp hy with hm | hm
          · exact Or.inl hm
          · exact Or.inr ⟨hk, List.mem_singleton.mp hm⟩
        · rw [if_neg hk] at hy
          exact Or.inl hy
      intro hyb
      have hyb2 : y ∈ b.2 ∨ (b.1 = col ∧ y = z) := by
        by_cases hk : b.1 = col
        · rw [if_pos hk] at hyb
          rcases List.mem_append.mp hyb with hm | hm
          · exact Or.inl hm
          · exact Or.inr ⟨hk, List.mem_singleton.mp hm⟩
        · rw [if_neg hk] at hyb
          exact Or.inl hyb
      rcases hya with hya | ⟨hka, hyz⟩
      · rcases hyb2 with hyb2 | ⟨_, hyz⟩
        · exact hdisj y hya hyb2
        · rw [hyz] at hya
          exact hznc (h.part_sub_colored ha z hya)
      · rcases hyb2 with hyb2 | ⟨hkb, _⟩
        · rw [hyz] at hyb2
          exact hznc (h.part_sub_colored hb z hyb2)
        · exact hne (hka.trans hkb.symm)
    · intro x hx
      rcases List.mem_append.mp hx with hm | hm
      · exact h.coloredSub x hm
      · rw [List.mem_singleton.mp hm]
        exact hzuniv

/-! ## Lemmas about the crossing fold, the part loop, the pass and the
while loop -/

theorem foldl_pc_grows : ∀ (cs : List (Char × Char)) (st : ColorState),
    Grows st (cs.foldl processCrossing st) := by
  intro cs
  induction cs with
  | nil => intro st; exact Grows.refl st
  | cons c rest ih =>
    intro st
    exact (processCrossing_grows st c).trans (ih (processCrossing st c))

theorem foldl_pc_StOk {keys univ : List Char} (hknd : keys.Nodup) :
    ∀ (cs : List (Char × Char)) (st : ColorState),
    (∀ c ∈ cs, c.1 ∈ univ ∧ c.2 ∈ univ) → StOk keys univ st →
    StOk keys univ (cs.foldl processCrossing st) := by
  intro cs
  induction cs with
  | nil => intro st _ h; exact h
  | cons c rest ih =>
    intro st hall h
    have hc := hall c (List.mem_cons_self c rest)
    exact ih _ (fun c' hc' => hall c' (List.mem_cons_of_mem c hc'))
      (StOk_processCrossing h hknd hc.1 hc.2)

theorem foldl_pc_flag_mono : ∀ (cs : List (Char × Char)) (st : ColorState),
    st.newColoring = true → (cs.foldl processCrossing st).newColoring = true := by
  intro cs
  induction cs with
  | nil => intro st h; exact h
  | cons c rest ih =>
    intro st h
    exact ih _ (processCrossing_flag_mono h)

theorem foldl_pc_flag_or_grow : ∀ (cs : List (Char × Char)) (st : ColorState),
    (cs.foldl processCrossing st).newColoring = true →
    st.newColoring = true ∨ st.colored.length < (cs.foldl processCrossing st).colored.length := by
  intro cs
  induction cs with
  | nil => intro st h; exact Or.inl h
  | cons c rest ih =>
    intro st h
    rcases ih (processCrossing st c) h with h2 | h2
    · rcases processCrossing_flag_or_grow st c h2 with h3 | h3
      · exact Or.inl h3
      · right
        calc st.colored.length < (processCrossing st c).colored.length := h3
          _ ≤ _ := (foldl_pc_grows rest (processCrossing st c)).colored_length
    · right
      calc st.colored.length ≤ (processCrossing st c).colored.length :=
            (processCrossing_grows st c).colored_length
        _ < _ := h2

theorem crossingsOf_mem_allMembers {kd : KnotDict} {s : Char} {c : Char × Char}
    (hc : c ∈ crossingsOf kd s) : c.1 ∈ allMembers kd ∧ c.2 ∈ allMembers kd := by
  unfold crossingsOf at hc
  cases hf : kd.find? (fun pr => pr.1 = s) with
  | none => rw [hf] at hc; cases hc
  | some pr =>
    rw [hf] at hc
    have hpr : pr ∈ kd := List.mem_of_find?_eq_some hf
    constructor
    · exact List.mem_flatMap.mpr ⟨pr, hpr, List.mem_flatMap.mpr ⟨c, hc, by simp⟩⟩
    · exact List.mem_flatMap.mpr ⟨pr, hpr, List.mem_flatMap.mpr ⟨c, hc, by simp⟩⟩

theorem nodup_subset_length {α : Type} [DecidableEq α] {l u : List α}
    (hn : l.Nodup) (hsub : ∀ x ∈ l, x ∈ u) :
    l.length ≤ u.length := by
  calc l.length = l.toFinset.card := (List.toFinset_card_of_nodup hn).symm
    _ ≤ u.toFinset.card := Finset.card_le_card (by
        intro x hx
        rw [List.mem_toFinset] at hx
        rw [List.mem_toFinset]
        exact hsub x hx)
    _ ≤ u.length := List.toFinset_card_le u

theorem StOk.colored_length_le {keys univ : List Char} {st : ColorState}
    (h : StOk keys univ st) : st.colored.length ≤ univ.length :=
  nodup_subset_length h.nodupColored h.coloredSub

theorem StOk.partList_length_le {keys univ : List Char} {st : ColorState}
    (h : StOk keys univ st) (seed : Char) :
    (partList seed st).length ≤ st.colored.length := by
  unfold partList partsVal
  cases hf : st.parts.find? (fun pr => pr.1 = seed) with
  | none => simp
  | some pr =>
    have hpr : pr ∈ st.parts := List.mem_of_find?_eq_some hf
    simp only []
    exact nodup_subset_length (h.nodupParts pr hpr) (h.part_sub_colored hpr)

theorem processPart_total {keys univ : List Char} (kd : KnotDict) (seed : Char)
    (hknd : keys.Nodup)
    (huniv : ∀ s, ∀ c ∈ crossingsOf kd s, c.1 ∈ univ ∧ c.2 ∈ univ) :
    ∀ (fuel idx : Nat) (st : ColorState), StOk keys univ st →
      univ.length < fuel + idx →
      ∃ st', processPart kd seed fuel idx st = some st' ∧ StOk keys univ st' ∧ Grows st st'
        ∧ (st.newColoring = true → st'.newColoring = true)
        ∧ (st'.newColoring = true →
            st.newColoring = true ∨ st.colored.length < st'.colored.length) := by
  intro fuel
  induction fuel with
  | zero =>
    intro idx st h hlt
    have hlen : (partList seed st).length ≤ univ.length :=
      le_trans (h.partList_length_le seed) h.colored_length_le
    refine ⟨st, ?_, h, Grows.refl st, fun hh => hh, fun hh => Or.inl hh⟩
    unfold processPart
    rw [if_neg (by omega)]
  | succ fuel ih =>
    intro idx st h hlt
    by_cases hc : idx < (partList seed st).length
    · have hst2ok : StOk keys univ
          (processCrossings kd ((partList seed st).getD idx 'A') st) :=
        foldl_pc_StOk hknd _ st (fun c hc => huniv _ c hc) h
      obtain ⟨st', h1, h2, h3, h4, h5⟩ := ih (idx + 1) _ hst2ok (by omega)
      refine ⟨st', ?_, h2, ?_, ?_, ?_⟩
      · unfold processPart
        rw [if_pos hc]
        exact h1
      · exact (foldl_pc_grows _ st).trans h3
      · intro hh
        exact h4 (foldl_pc_flag_mono _ st hh)
      · intro hh
        rcases h5 hh with h6 | h6
        · rcases foldl_pc_flag_or_grow _ st h6 with h7 | h7
          · exact Or.inl h7
          · exact Or.inr (lt_of_lt_of_le h7 h3.colored_length)
        · exact Or.inr (lt_of_le_of_lt (foldl_pc_grows _ st).colored_length h6)
    · refine ⟨st, ?_, h, Grows.refl st, fun hh => hh, fun hh => Or.inl hh⟩
      unfold processPart
      rw [if_neg hc]

theorem Grows.clear_flag (st : ColorState) : Grows st { st with newColoring := false } :=
  ⟨⟨[], by simp⟩, fun col => ⟨[], by simp [partList]⟩⟩

theorem processSeedsAux_total {keys univ : List Char} (kd : KnotDict)
    (hknd : keys.Nodup)
    (huniv : ∀ s, ∀ c ∈ crossingsOf kd s, c.1 ∈ univ ∧ c.2 ∈ univ)
    {pf : Nat} (hpf : univ.length < pf) :
    ∀ (ks : List Char) (st : ColorState), StOk keys univ st →
      ∃ st', processSeedsAux kd pf ks st = some st' ∧ StOk keys univ st' ∧ Grows st st'
        ∧ (st.newColoring = true → st'.newColoring = true)
        ∧ (st'.newColoring = true →
            st.newColoring = true ∨ st.colored.length < st'.colored.length) := by
  intro ks
  induction ks with
  | nil =>
    intro st h
    exact ⟨st, rfl, h, Grows.refl st, fun hh => hh, fun hh => Or.inl hh⟩
  | cons k rest ih =>
    intro st h
    obtain ⟨st2, h1, h2, h3, h4, h5⟩ :=
      processPart_total kd k hknd huniv pf 0 st h (by omega)
    obtain ⟨st', g1, g2, g3, g4, g5⟩ := ih st2 h2
    refine ⟨st', ?_, g2, h3.trans g3, fun hh => g4 (h4 hh), ?_⟩
    · unfold processSeedsAux
      rw [h1]
      exact g1
    · intro hh
      rcases g5 hh with h6 | h6
      · rcases h5 h6 with h7 | h7
        · exact Or.inl h7
        · exact Or.inr (lt_of_lt_of_le h7 g3.colored_length)
      · exact Or.inr (lt_of_le_of_lt h3.colored_length h6)

theorem extendLoop_total {keys univ : List Char} (kd : KnotDict)
    (hknd : keys.Nodup)
    (huniv : ∀ s, ∀ c ∈ crossingsOf kd s, c.1 ∈ univ ∧ c.2 ∈ univ)
    {pf : Nat} (hpf : univ.length < pf) (ks : List Char) :
    ∀ (fuel : Nat) (st : ColorState), StOk keys univ st →
      univ.length + 2 ≤ st.colored.length + fuel →
      ∃ st', extendLoop kd pf ks fuel st = some st' ∧ StOk keys univ st' ∧ Grows st st'
        ∧ st'.newColoring = false := by
  intro fuel
  induction fuel with
  | zero =>
    intro st h hlt
    cases hnc : st.newColoring with
    | false =>
      refine ⟨st, ?_, h, Grows.refl st, hnc⟩
      unfold extendLoop
      rw [hnc]
      rfl
    | true =>
      exact absurd h.colored_length_le (by omega)
  | succ fuel ih =>
    intro st h hlt
    cases hnc : st.newColoring with
    | false =>
      refine ⟨st, ?_, h, Grows.refl st, hnc⟩
      unfold extendLoop
      rw [hnc]
      rfl
    | true =>
      have h0 : StOk keys univ { st with newColoring := false } :=
        ⟨h.keysEq, h.sync, h.nodupColored, h.nodupParts, h.disj, h.coloredSub⟩
      obtain ⟨st2, h1, h2, h3, h4, h5⟩ := processSeedsAux_total kd hknd huniv hpf ks _ h0
      cases hnc2 : st2.newColoring with
      | false =>
        refine ⟨st2, ?_, h2, ?_, hnc2⟩
        · unfold extendLoop
          rw [hnc, h1]
          cases fuel with
          | zero =>
            show (if st2.newColoring = true then none else some st2) = some st2
            rw [hnc2]
            rfl
          | succ fuel =>
            show (if st2.newColoring = true then _ else some st2) = some st2
            rw [hnc2]
            rfl
        · exact Grows.trans (Grows.clear_flag st) h3
      | true =>
        have hgrow : st.colored.length < st2.colored.length := by
          rcases h5 hnc2 with h6 | h6
          · cases h6
          · exact h6
        obtain ⟨st', g1, g2, g3, g4⟩ := ih st2 h2 (by
          have := h3.colored_length
          omega)
        refine ⟨st', ?_, g2, ?_, g4⟩
        · unfold extendLoop
          rw [hnc, h1]
          exact g1
        · exact Grows.trans (Grows.trans (Grows.clear_flag st) h3) g3

theorem pyDedup_eq_of_nodup : ∀ (seen l : List Char), l.Nodup → (∀ x ∈ l, x ∉ seen) →
    pyDedup seen l = l := by
  intro seen l
  induction l generalizing seen with
  | nil => intro _ _; rfl
  | cons x xs ih =>
    intro hnd hdis
    unfold pyDedup
    rw [if_neg (hdis x (List.mem_cons_self x xs))]
    rw [ih (x :: seen) (List.nodup_cons.mp hnd).2]
    intro y hy
    rw [List.mem_cons]
    rintro (rfl | hseen)
    · exact (List.nodup_cons.mp hnd).1 hy
    · exact hdis y (List.mem_cons_of_mem x hy) hseen

theorem initState_StOk {seeds : List Char} (hnd : seeds.Nodup) (kd : KnotDict) :
    StOk seeds (seeds ++ allMembers kd) (initState seeds) := by
  have hded : pyDedup [] seeds = seeds :=
    pyDedup_eq_of_nodup [] seeds hnd (by intro x _ hx; cases hx)
  unfold initState
  rw [hded]
  refine ⟨?_, ?_, hnd, ?_, ?_, ?_⟩
  · rw [List.map_map]
    exact List.map_id seeds
  · intro x
    rw [List.mem_flatMap]
    constructor
    · rintro ⟨pr, hpr, hx⟩
      obtain ⟨s, hs, rfl⟩ := List.mem_map.mp hpr
      rw [List.mem_singleton.mp hx]
      exact hs
    · intro hx
      exact ⟨(x, [x]), List.mem_map_of_mem _ hx, List.mem_singleton.mpr rfl⟩
  · intro pr hpr
    obtain ⟨s, _, rfl⟩ := List.mem_map.mp hpr
    exact List.nodup_singleton s
  · rw [List.pairwise_map]
    refine hnd.imp ?_
    intro s t hst x hxs hxt
    rw [List.mem_singleton.mp hxs] at hxt
    exact hst (List.mem_singleton.mp hxt)
  · intro x hx
    exact List.mem_append_left _ hx

theorem maximallyExtendF_total {k : KnotDict} {seeds : List Char} (hnd : seeds.Nodup) :
    ∃ st', maximallyExtendF seeds k = some st'
      ∧ StOk seeds (seeds ++ allMembers k) st'
      ∧ Grows (initState seeds) st'
      ∧ st'.newColoring = false := by
  have h0 := initState_StOk hnd k
  have huniv : ∀ s, ∀ c ∈ crossingsOf k s,
      c.1 ∈ seeds ++ allMembers k ∧ c.2 ∈ seeds ++ allMembers k := by
    intro s c hc
    obtain ⟨h1, h2⟩ := crossingsOf_mem_allMembers hc
    exact ⟨List.mem_append_right _ h1, List.mem_append_right _ h2⟩
  have hpf : (seeds ++ allMembers k).length < extFuel k seeds := by
    unfold extFuel
    rw [List.length_append]
    omega
  obtain ⟨st', h1, h2, h3, h4⟩ := extendLoop_total k hnd huniv hpf
    ((initState seeds).parts.map fun pr => pr.1) (extFuel k seeds) (initState seeds) h0 (by
      have hc : (initState seeds).colored = seeds := rfl
      unfold extFuel
      rw [hc, List.length_append]
      omega)
  exact ⟨st', h1, h2, h3, h4⟩

theorem maximallyExtend_spec {k : KnotDict} {seeds : List Char} (hnd : seeds.Nodup) :
    maximallyExtendF seeds k = some (maximallyExtend seeds k)
      ∧ StOk seeds (seeds ++ allMembers k) (maximallyExtend seeds k)
      ∧ Grows (initState seeds) (maximallyExtend seeds k)
      ∧ (maximallyExtend seeds k).newColoring = false := by
  obtain ⟨st', h1, h2, h3, h4⟩ := maximallyExtendF_total (k := k) hnd
  have he : maximallyExtend seeds k = st' := by
    unfold maximallyExtend
    rw [h1]
    rfl
  rw [he]
  exact ⟨h1, h2, h3, h4⟩

/-! ## Fixed-point and extraction lemmas -/

theorem foldl_pc_nc_false : ∀ (cs : List (Char × Char)) (st : ColorState),
    (cs.foldl processCrossing st).newColoring = false →
    cs.foldl processCrossing st = st ∧ st.newColoring = false := by
  intro cs
  induction cs with
  | nil => intro st h; exact ⟨rfl, h⟩
  | cons c rest ih =>
    intro st h
    obtain ⟨h1, h2⟩ := ih (processCrossing st c) h
    obtain ⟨h3, h4⟩ := processCrossing_nc_false h2
    refine ⟨?_, h4⟩
    calc (c :: rest).foldl processCrossing st = rest.foldl processCrossing (processCrossing st c) := rfl
      _ = processCrossing st c := h1
      _ = st := h3

theorem processPart_grows (kd : KnotDict) (seed : Char) :
    ∀ (fuel idx : Nat) (st st' : ColorState),
    processPart kd seed fuel idx st = some st' → Grows st st' := by
  intro fuel
  induction fuel with
  | zero =>
    intro idx st st' h
    unfold processPart at h
    by_cases hc : idx < (partList seed st).length
    · rw [if_pos hc] at h; cases h
    · rw [if_neg hc] at h
      cases h
      exact Grows.refl st
  | succ fuel ih =>
    intro idx st st' h
    unfold processPart at h
    by_cases hc : idx < (partList seed st).length
    · rw [if_pos hc] at h
      exact (foldl_pc_grows _ st).trans (ih (idx + 1) _ st' h)
    · rw [if_neg hc] at h
      cases h
      exact Grows.refl st

theorem processSeedsAux_grows (kd : KnotDict) (pf : Nat) :
    ∀ (ks : List Char) (st st' : ColorState),
    processSeedsAux kd pf ks st = some st' → Grows st st' := by
  intro ks
  induction ks with
  | nil =>
    intro st st' h
    cases h
    exact Grows.refl st
  | cons k rest ih =>
    intro st st' h
    unfold processSeedsAux at h
    cases hp : processPart kd k pf 0 st with
    | none => rw [hp] at h; cases h
    | some st2 =>
      rw [hp] at h
      exact (processPart_grows kd k pf 0 st st2 hp).trans (ih st2 st' h)

theorem processPart_nc_false (kd : KnotDict) (seed : Char) :
    ∀ (fuel idx : Nat) (st st' : ColorState),
    processPart kd seed fuel idx st = some st' → st'.newColoring = false →
    st' = st ∧ st.newColoring = false := by
  intro fuel
  induction fuel with
  | zero =>
    intro idx st st' h hnc
    unfold processPart at h
    by_cases hc : idx < (partList seed st).length
    · rw [if_pos hc] at h; cases h
    · rw [if_neg hc] at h
      cases h
      exact ⟨rfl, hnc⟩
  | succ fuel ih =>
    intro idx st st' h hnc
    unfold processPart at h
    by_cases hc : idx < (partList seed st).length
    · rw [if_pos hc] at h
      obtain ⟨h1, h2⟩ := ih (idx + 1) _ st' h hnc
      obtain ⟨h3, h4⟩ := foldl_pc_nc_false _ st h2
      rw [h1]
      exact ⟨h3, h4⟩
    · rw [if_neg hc] at h
      cases h
      exact ⟨rfl, hnc⟩

theorem processSeedsAux_nc_false (kd : KnotDict) (pf : Nat) :
    ∀ (ks : List Char) (st st' : ColorState),
    processSeedsAux kd pf ks st = some st' → st'.newColoring = false →
    st' = st ∧ st.newColoring = false := by
  intro ks
  induction ks with
  | nil =>
    intro st st' h hnc
    cases h
    exact ⟨rfl, hnc⟩
  | cons k rest ih =>
    intro st st' h hnc
    unfold processSeedsAux at h
    cases hp : processPart kd k pf 0 st with
    | none => rw [hp] at h; cases h
    | some st2 =>
      rw [hp] at h
      obtain ⟨h1, h2⟩ := ih st2 st' h hnc
      obtain ⟨h3, h4⟩ := processPart_nc_false kd k pf 0 st st2 hp h2
      rw [h1]
      exact ⟨h3, h4⟩

theorem extendLoop_fixed (kd : KnotDict) (pf : Nat) (ks : List Char) :
    ∀ (fuel : Nat) (st st' : ColorState),
    extendLoop kd pf ks fuel st = some st' → st.newColoring = true →
    processSeedsAux kd pf ks st' = some st' ∧ st'.newColoring = false := by
  intro fuel
  induction fuel with
  | zero =>
    intro st st' h hnc
    unfold extendLoop at h
    rw [hnc] at h
    cases h
  | succ fuel ih =>
    intro st st' h hnc
    unfold extendLoop at h
    rw [hnc] at h
    simp only [if_true] at h
    cases hp : processSeedsAux kd pf ks { st with newColoring := false } with
    | none => rw [hp] at h; cases h
    | some st2 =>
      rw [hp] at h
      cases hnc2 : st2.newColoring with
      | true => exact ih st2 st' h hnc2
      | false =>
        have hst' : st' = st2 := by
          cases fuel with
          | zero =>
            unfold extendLoop at h
            rw [hnc2] at h
            simp only [Bool.false_eq_true, if_false] at h
            exact (Option.some.inj h).symm
          | succ fuel =>
            unfold extendLoop at h
            rw [hnc2] at h
            simp only [Bool.false_eq_true, if_false] at h
            exact (Option.some.inj h).symm
        obtain ⟨h1, _⟩ := processSeedsAux_nc_false kd pf ks _ st2 hp hnc2
        subst hst'
        rw [← h1] at hp
        exact ⟨hp, hnc2⟩

theorem foldl_pc_eq_of_le : ∀ (cs : List (Char × Char)) (st : ColorState),
    (cs.foldl processCrossing st).colored.length ≤ st.colored.length →
    cs.foldl processCrossing st = st := by
  intro cs
  induction cs with
  | nil => intro st _; rfl
  | cons c rest ih =>
    intro st hle
    rcases processCrossing_cases st c with he | ⟨z, col, _, heq⟩
    · have hstep : (c :: rest).foldl processCrossing st = rest.foldl processCrossing st := by
        show rest.foldl processCrossing (processCrossing st c) = _
        rw [he]
      rw [hstep] at hle ⊢
      exact ih st hle
    · exfalso
      have h1 : (processCrossing st c).colored.length = st.colored.length + 1 := by
        rw [heq]
        simp
      have h2 := (foldl_pc_grows rest (processCrossing st c)).colored_length
      have : (c :: rest).foldl processCrossing st
          = rest.foldl processCrossing (processCrossing st c) := rfl
      rw [this] at hle
      omega

theorem foldl_pc_eq_self : ∀ (cs : List (Char × Char)) (st : ColorState),
    cs.foldl processCrossing st = st → ∀ c ∈ cs, processCrossing st c = st := by
  intro cs
  induction cs with
  | nil => intro st _ c hc; cases hc
  | cons c0 rest ih =>
    intro st h c hc
    have hstep : (c0 :: rest).foldl processCrossing st
        = rest.foldl processCrossing (processCrossing st c0) := rfl
    have hid : processCrossing st c0 = st := by
      rcases processCrossing_cases st c0 with he | ⟨z, col, _, heq⟩
      · exact he
      · exfalso
        have h1 : (processCrossing st c0).colored.length = st.colored.length + 1 := by
          rw [heq]
          simp
        have h2 := (foldl_pc_grows rest (processCrossing st c0)).colored_length
        have h3 : rest.foldl processCrossing (processCrossing st c0) = st := by
          rw [← hstep]
          exact h
        rw [h3] at h2
        omega
    rcases List.mem_cons.mp hc with rfl | hc2
    · exact hid
    · refine ih st ?_ c hc2
      rw [hstep, hid] at h
      exact h

theorem processPart_eq_of_le (kd : KnotDict) (seed : Char) :
    ∀ (fuel idx : Nat) (st st' : ColorState),
    processPart kd seed fuel idx st = some st' →
    st'.colored.length ≤ st.colored.length → st' = st := by
  intro fuel
  induction fuel with
  | zero =>
    intro idx st st' h _
    unfold processPart at h
    by_cases hc : idx < (partList seed st).length
    · rw [if_pos hc] at h; cases h
    · rw [if_neg hc] at h
      exact (Option.some.inj h).symm
  | succ fuel ih =>
    intro idx st st' h hle
    unfold processPart at h
    by_cases hc : idx < (partList seed st).length
    · rw [if_pos hc] at h
      have hg2 := processPart_grows kd seed fuel (idx + 1) _ st' h
      have heq : processCrossings kd ((partList seed st).getD idx 'A') st = st := by
        refine foldl_pc_eq_of_le _ st ?_
        show (processCrossings kd ((partList seed st).getD idx 'A') st).colored.length
          ≤ st.colored.length
        have h1 := hg2.colored_length
        omega
      rw [heq] at h
      exact ih (idx + 1) st st' h hle
    · rw [if_neg hc] at h
      exact (Option.some.inj h).symm

theorem processPart_eq_self (kd : KnotDict) (seed : Char) :
    ∀ (fuel idx : Nat) (st : ColorState),
    processPart kd seed fuel idx st = some st →
    ∀ j, idx ≤ j → j < (partList seed st).length →
    processCrossings kd ((partList seed st).getD j 'A') st = st := by
  intro fuel
  induction fuel with
  | zero =>
    intro idx st h j hij hj
    unfold processPart at h
    by_cases hc : idx < (partList seed st).length
    · rw [if_pos hc] at h; cases h
    · omega
  | succ fuel ih =>
    intro idx st h j hij hj
    unfold processPart at h
    by_cases hc : idx < (partList seed st).length
    · rw [if_pos hc] at h
      have hg2 := processPart_grows kd seed fuel (idx + 1) _ st h
      have heq : processCrossings kd ((partList seed st).getD idx 'A') st = st := by
        refine foldl_pc_eq_of_le _ st ?_
        show (processCrossings kd ((partList seed st).getD idx 'A') st).colored.length
          ≤ st.colored.length
        exact hg2.colored_length
      rcases Nat.eq_or_lt_of_le hij with rfl | hlt
      · exact heq
      · rw [heq] at h
        exact ih (idx + 1) st h j hlt hj
    · omega

theorem processSeedsAux_eq_self (kd : KnotDict) (pf : Nat) :
    ∀ (ks : List Char) (st : ColorState),
    processSeedsAux kd pf ks st = some st →
    ∀ k ∈ ks, processPart kd k pf 0 st = some st := by
  intro ks
  induction ks with
  | nil => intro st _ k hk; cases hk
  | cons k0 rest ih =>
    intro st h k hk
    unfold processSeedsAux at h
    cases hp : processPart kd k0 pf 0 st with
    | none => rw [hp] at h; cases h
    | some st2 =>
      rw [hp] at h
      have hg1 := processPart_grows kd k0 pf 0 st st2 hp
      have hg2 := processSeedsAux_grows kd pf rest st2 st h
      have hst2 : st2 = st := by
        refine processPart_eq_of_le kd k0 pf 0 st st2 hp ?_
        have h1 := hg1.colored_length
        have h2 := hg2.colored_length
        omega
      rcases List.mem_cons.mp hk with rfl | hk2
      · rw [hst2] at hp
        exact hp
      · rw [hst2] at h
        exact ih st h k hk2

theorem processCrossing_eq_self_forces {st : ColorState} {c : Char × Char}
    (hid : processCrossing st c = st)
    (hsync : ∀ x, x ∈ st.parts.flatMap (fun pr => pr.2) ↔ x ∈ st.colored) :
    (c.1 ∈ st.colored → c.2 ∈ st.colored) ∧ (c.2 ∈ st.colored → c.1 ∈ st.colored) := by
  constructor
  · intro h1
    by_contra h2
    obtain ⟨col, hcol⟩ := findColor_isSome_of_mem_flatMap ((hsync c.1).mpr h1)
    have heq : processCrossing st c =
        { parts := appendToPart st.parts col c.2
          colored := st.colored ++ [c.2]
          newColoring := true } := by
      unfold processCrossing
      rw [if_pos ⟨h1, h2⟩, hcol]
    rw [hid] at heq
    have : st.colored.length = (st.colored ++ [c.2]).length := congrArg (fun s => s.colored.length) heq
    rw [List.length_append] at this
    simp at this
  · intro h2
    by_contra h1
    obtain ⟨col, hcol⟩ := findColor_isSome_of_mem_flatMap ((hsync c.2).mpr h2)
    have heq : processCrossing st c =
        { parts := appendToPart st.parts col c.1
          colored := st.colored ++ [c.1]
          newColoring := true } := by
      unfold processCrossing
      rw [if_neg (by intro hc; exact h1 hc.1), if_pos ⟨h1, h2⟩, hcol]
    rw [hid] at heq
    have : st.colored.length = (st.colored ++ [c.1]).length := congrArg (fun s => s.colored.length) heq
    rw [List.length_append] at this
    simp at this

theorem partsVal_mem_exists {parts : List (Char × List Char)} {col x : Char}
    (hx : x ∈ partsVal parts col) : ∃ pr ∈ parts, pr.1 = col ∧ x ∈ pr.2 := by
  unfold partsVal at hx
  cases hf : parts.find? (fun pr => pr.1 = col) with
  | none => rw [hf] at hx; cases hx
  | some pr =>
    rw [hf] at hx
    exact ⟨pr, List.mem_of_find?_eq_some hf, by simpa using List.find?_some hf, hx⟩

theorem partsVal_unique {parts : List (Char × List Char)}
    (hdisj : parts.Pairwise fun a b => ∀ x ∈ a.2, x ∉ b.2) {col1 col2 x : Char}
    (h1 : x ∈ partsVal parts col1) (h2 : x ∈ partsVal parts col2) : col1 = col2 := by
  induction parts with
  | nil => cases h1
  | cons a rest ih =>
    rw [partsVal_cons] at h1 h2
    by_cases ha1 : a.1 = col1
    · by_cases ha2 : a.1 = col2
      · rw [← ha1, ← ha2]
      · rw [if_pos ha1] at h1
        rw [if_neg ha2] at h2
        obtain ⟨pr, hpr, _, hxpr⟩ := partsVal_mem_exists h2
        exact absurd hxpr ((List.rel_of_pairwise_cons hdisj hpr) x h1)
    · by_cases ha2 : a.1 = col2
      · rw [if_neg ha1] at h1
        rw [if_pos ha2] at h2
        obtain ⟨pr, hpr, _, hxpr⟩ := partsVal_mem_exists h1
        exact absurd hxpr ((List.rel_of_pairwise_cons hdisj hpr) x h2)
      · rw [if_neg ha1] at h1
        rw [if_neg ha2] at h2
        exact ih (List.Pairwise.sublist (List.sublist_cons_self a rest) hdisj) h1 h2

theorem StOk.partList_sub_colored {keys univ : List Char} {st : ColorState}
    (h : StOk keys univ st) (seed : Char) :
    ∀ x ∈ partList seed st, x ∈ st.colored := by
  intro x hx
  obtain ⟨pr, hpr, _, hxpr⟩ := partsVal_mem_exists hx
  exact h.part_sub_colored hpr x hxpr

theorem fixedPoint_closedUnder {keys univ : List Char} {kd : KnotDict} {pf : Nat}
    {st : ColorState} (h : StOk keys univ st) (hknd : keys.Nodup)
    (hfix : processSeedsAux kd pf keys st = some st) :
    ClosedUnder kd fun x => x ∈ st.colored := by
  intro s hs c hc
  obtain ⟨pr, hpr, hspr⟩ := List.mem_flatMap.mp ((h.sync s).mpr hs)
  have hkeymem : pr.1 ∈ keys := by
    rw [← h.keysEq]
    exact List.mem_map_of_mem _ hpr
  have hpart : partList pr.1 st = pr.2 := by
    unfold partList partsVal
    rw [find?_key_eq_of_nodup (h.partsKeysNodup hknd) hpr]
  have hs' : s ∈ partList pr.1 st := by
    rw [hpart]
    exact hspr
  obtain ⟨j, hj, hsj⟩ := List.mem_iff_getElem.mp hs'
  have hpp := processSeedsAux_eq_self kd pf keys st hfix pr.1 hkeymem
  have hpcs := processPart_eq_self kd pr.1 pf 0 st hpp j (Nat.zero_le j) hj
  rw [List.getD_eq_getElem _ _ hj, hsj] at hpcs
  have hid := foldl_pc_eq_self (crossingsOf kd s) st hpcs c hc
  exact processCrossing_eq_self_forces hid h.sync

theorem foldl_pc_closed {kd : KnotDict} {S : Char → Prop} (hS : ClosedUnder kd S)
    {s : Char} (hsS : S s) :
    ∀ (cs : List (Char × Char)), (∀ c ∈ cs, c ∈ crossingsOf kd s) →
    ∀ (st : ColorState), (∀ x ∈ st.colored, S x) →
    ∀ x ∈ (cs.foldl processCrossing st).colored, S x := by
  intro cs
  induction cs with
  | nil => intro _ st hst x hx; exact hst x hx
  | cons c rest ih =>
    intro hall st hst
    refine ih (fun c' hc' => hall c' (List.mem_cons_of_mem c hc')) (processCrossing st c) ?_
    rcases processCrossing_cases st c with he | ⟨z, col, hz, heq⟩
    · rw [he]
      exact hst
    · rw [heq]
      intro x hx
      rcases List.mem_append.mp hx with hm | hm
      · exact hst x hm
      · rw [List.mem_singleton.mp hm]
        have hcmem := hall c (List.mem_cons_self c rest)
        rcases hz with ⟨rfl, hin, _, _⟩ | ⟨rfl, _, hin, _⟩
        · exact (hS s hsS c hcmem).1 (hst c.1 hin)
        · exact (hS s hsS c hcmem).2 (hst c.2 hin)

theorem processPart_closed {keys univ : List Char} {kd : KnotDict} {S : Char → Prop}
    (hS : ClosedUnder kd S) (hknd : keys.Nodup)
    (huniv : ∀ s, ∀ c ∈ crossingsOf kd s, c.1 ∈ univ ∧ c.2 ∈ univ) (seed : Char) :
    ∀ (fuel idx : Nat) (st st' : ColorState), StOk keys univ st →
    (∀ x ∈ st.colored, S x) →
    processPart kd seed fuel idx st = some st' →
    ∀ x ∈ st'.colored, S x := by
  intro fuel
  induction fuel with
  | zero =>
    intro idx st st' h hst hp
    unfold processPart at hp
    by_cases hc : idx < (partList seed st).length
    · rw [if_pos hc] at hp; cases hp
    · rw [if_neg hc] at hp
      cases hp
      exact hst
  | succ fuel ih =>
    intro idx st st' h hst hp
    unfold processPart at hp
    by_cases hc : idx < (partList seed st).length
    · rw [if_pos hc] at hp
      have hstrand : (partList seed st).getD idx 'A' ∈ st.colored := by
        refine h.partList_sub_colored seed _ ?_
        rw [List.getD_eq_getElem _ _ hc]
        exact List.getElem_mem hc
      have hst2 : ∀ x ∈ (processCrossings kd ((partList seed st).getD idx 'A') st).colored, S x := by
        refine foldl_pc_closed hS (hst _ hstrand) _ (fun c hc' => hc') st hst
      have h2 : StOk keys univ (processCrossings kd ((partList seed st).getD idx 'A') st) :=
        foldl_pc_StOk hknd _ st (fun c hc' => huniv _ c hc') h
      exact ih (idx + 1) _ st' h2 hst2 hp
    · rw [if_neg hc] at hp
      cases hp
      exact hst

theorem processPart_StOk {keys univ : List Char} {kd : KnotDict} (hknd : keys.Nodup)
    (huniv : ∀ s, ∀ c ∈ crossingsOf kd s, c.1 ∈ univ ∧ c.2 ∈ univ) (seed : Char) :
    ∀ (fuel idx : Nat) (st st' : ColorState), StOk keys univ st →
    processPart kd seed fuel idx st = some st' → StOk keys univ st' := by
  intro fuel
  induction fuel with
  | zero =>
    intro idx st st' h hp
    unfold processPart at hp
    by_cases hc : idx < (partList seed st).length
    · rw [if_pos hc] at hp; cases hp
    · rw [if_neg hc] at hp
      cases hp
      exact h
  | succ fuel ih =>
    intro idx st st' h hp
    unfold processPart at hp
    by_cases hc : idx < (partList seed st).length
    · rw [if_pos hc] at hp
      exact ih (idx + 1) _ st' (foldl_pc_StOk hknd _ st (fun c hc' => huniv _ c hc') h) hp
    · rw [if_neg hc] at hp
      cases hp
      exact h

theorem processSeedsAux_closed {keys univ : List Char} {kd : KnotDict} {S : Char → Prop}
    (hS : ClosedUnder kd S) (hknd : keys.Nodup)
    (huniv : ∀ s, ∀ c ∈ crossingsOf kd s, c.1 ∈ univ ∧ c.2 ∈ univ) (pf : Nat) :
    ∀ (ks : List Char) (st st' : ColorState), StOk keys univ st →
    (∀ x ∈ st.colored, S x) →
    processSeedsAux kd pf ks st = some st' →
    ∀ x ∈ st'.colored, S x := by
  intro ks
  induction ks with
  | nil =>
    intro st st' _ hst hp
    cases hp
    exact hst
  | cons k rest ih =>
    intro st st' h hst hp
    unfold processSeedsAux at hp
    cases hpp : processPart kd k pf 0 st with
    | none => rw [hpp] at hp; cases hp
    | some st2 =>
      rw [hpp] at hp
      have hst2 := processPart_closed hS hknd huniv k pf 0 st st2 h hst hpp
      have h2 : StOk keys univ st2 := processPart_StOk hknd huniv k pf 0 st st2 h hpp
      exact ih st2 st' h2 hst2 hp

theorem processSeedsAux_StOk {keys univ : List Char} {kd : KnotDict} (hknd : keys.Nodup)
    (huniv : ∀ s, ∀ c ∈ crossingsOf kd s, c.1 ∈ univ ∧ c.2 ∈ univ) (pf : Nat) :
    ∀ (ks : List Char) (st st' : ColorState), StOk keys univ st →
    processSeedsAux kd pf ks st = some st' → StOk keys univ st' := by
  intro ks
  induction ks with
  | nil =>
    intro st st' h hp
    cases hp
    exact h
  | cons k rest ih =>
    intro st st' h hp
    unfold processSeedsAux at hp
    cases hpp : processPart kd k pf 0 st with
    | none => rw [hpp] at hp; cases hp
    | some st2 =>
      rw [hpp] at hp
      exact ih st2 st' (processPart_StOk hknd huniv k pf 0 st st2 h hpp) hp

theorem maximallyExtendF_eq (seeds : List Char) (kd : KnotDict) :
    maximallyExtendF seeds kd
      = extendLoop kd (extFuel kd seeds) ((initState seeds).parts.map fun pr => pr.1)
          (extFuel kd seeds) (initState seeds) := rfl

theorem extendLoop_closed {keys univ : List Char} {kd : KnotDict} {S : Char → Prop}
    (hS : ClosedUnder kd S) (hknd : keys.Nodup)
    (huniv : ∀ s, ∀ c ∈ crossingsOf kd s, c.1 ∈ univ ∧ c.2 ∈ univ) (pf : Nat) (ks : List Char) :
    ∀ (fuel : Nat) (st st' : ColorState), StOk keys univ st →
    (∀ x ∈ st.colored, S x) →
    extendLoop kd pf ks fuel st = some st' →
    ∀ x ∈ st'.colored, S x := by
  intro fuel
  induction fuel with
  | zero =>
    intro st st' h hst hp
    unfold extendLoop at hp
    cases hnc : st.newColoring with
    | true => rw [hnc] at hp; cases hp
    | false =>
      rw [hnc] at hp
      simp only [Bool.false_eq_true, if_false] at hp
      cases hp
      exact hst
  | succ fuel ih =>
    intro st st' h hst hp
    unfold extendLoop at hp
    cases hnc : st.newColoring with
    | false =>
      rw [hnc] at hp
      simp only [Bool.false_eq_true, if_false] at hp
      cases hp
      exact hst
    | true =>
      rw [hnc] at hp
      simp only [if_true] at hp
      cases hpp : processSeedsAux kd pf ks { st with newColoring := false } with
      | none => rw [hpp] at hp; cases hp
      | some st2 =>
        rw [hpp] at hp
        have h0 : StOk keys univ { st with newColoring := false } :=
          ⟨h.keysEq, h.sync, h.nodupColored, h.nodupParts, h.disj, h.coloredSub⟩
        have hst2 := processSeedsAux_closed hS hknd huniv pf ks _ st2 h0 hst hpp
        have h2 : StOk keys univ st2 :=
          processSeedsAux_StOk hknd huniv pf ks _ st2 h0 hpp
        exact ih st2 st' h2 hst2 hp

theorem initState_keys {seeds : List Char} (hnd : seeds.Nodup) :
    (initState seeds).parts.map (fun pr => pr.1) = seeds := by
  unfold initState
  rw [pyDedup_eq_of_nodup [] seeds hnd (by intro x _ hx; cases hx)]
  rw [List.map_map]
  exact List.map_id seeds

theorem partsVal_map_singleton : ∀ (l : List Char) (s : Char), s ∈ l →
    partsVal (l.map fun x => (x, [x])) s = [s] := by
  intro l
  induction l with
  | nil => intro s hs; cases hs
  | cons x xs ih =>
    intro s hs
    rw [List.map_cons, partsVal_cons]
    by_cases h : x = s
    · rw [if_pos (by simpa using h)]
      rw [h]
    · rw [if_neg (by simpa using h)]
      exact ih s (by
        rcases List.mem_cons.mp hs with rfl | hm
        · exact absurd rfl h
        · exact hm)

theorem maximallyExtend_seeds_colored {kd : KnotDict} {seeds : List Char}
    (hnd : seeds.Nodup) {s : Char} (hs : s ∈ seeds) :
    s ∈ (maximallyExtend seeds kd).colored := by
  obtain ⟨_, _, hgrows, _⟩ := maximallyExtend_spec (k := kd) hnd
  refine hgrows.colored_mem ?_
  exact hs

theorem maximallyExtend_closed {kd : KnotDict} {seeds : List Char} (hnd : seeds.Nodup) :
    ClosedUnder kd fun x => x ∈ (maximallyExtend seeds kd).colored := by
  obtain ⟨hsome, hok, _, _⟩ := maximallyExtend_spec (k := kd) hnd
  have hfix : processSeedsAux kd (extFuel kd seeds) seeds (maximallyExtend seeds kd)
      = some (maximallyExtend seeds kd) := by
    have hinit : (initState seeds).newColoring = true := rfl
    rw [maximallyExtendF_eq] at hsome
    have := extendLoop_fixed kd (extFuel kd seeds)
      ((initState seeds).parts.map fun pr => pr.1) (extFuel kd seeds)
      (initState seeds) (maximallyExtend seeds kd) hsome hinit
    rw [initState_keys hnd] at this
    exact this.1
  exact fixedPoint_closedUnder hok hnd hfix

theorem maximallyExtend_sub_closed {kd : KnotDict} {seeds : List Char} {S : Char → Prop}
    (hnd : seeds.Nodup) (hS : ClosedUnder kd S) (hseeds : ∀ s ∈ seeds, S s) :
    ∀ x ∈ (maximallyExtend seeds kd).colored, S x := by
  obtain ⟨hsome, _, _, _⟩ := maximallyExtend_spec (k := kd) hnd
  have h0 := initState_StOk hnd kd
  have huniv : ∀ s, ∀ c ∈ crossingsOf kd s,
      c.1 ∈ seeds ++ allMembers kd ∧ c.2 ∈ seeds ++ allMembers kd := by
    intro s c hc
    obtain ⟨ha, hb⟩ := crossingsOf_mem_allMembers hc
    exact ⟨List.mem_append_right _ ha, List.mem_append_right _ hb⟩
  rw [maximallyExtendF_eq] at hsome
  refine extendLoop_closed hS hnd huniv (extFuel kd seeds)
    ((initState seeds).parts.map fun pr => pr.1) (extFuel kd seeds)
    (initState seeds) (maximallyExtend seeds kd) h0 ?_ hsome
  intro x hx
  exact hseeds x hx

theorem maximallyExtend_fixed {kd : KnotDict} {seeds : List Char} (hnd : seeds.Nodup) :
    processSeedsAux kd (extFuel kd seeds) seeds (maximallyExtend seeds kd)
      = some (maximallyExtend seeds kd) := by
  obtain ⟨hsome, _, _, _⟩ := maximallyExtend_spec (k := kd) hnd
  rw [maximallyExtendF_eq] at hsome
  have hinit : (initState seeds).newColoring = true := rfl
  have := extendLoop_fixed kd (extFuel kd seeds)
    ((initState seeds).parts.map fun pr => pr.1) (extFuel kd seeds)
    (initState seeds) (maximallyExtend seeds kd) hsome hinit
  rw [initState_keys hnd] at this
  exact this.1

/-! ## Claims C6, C7, C8 -/

/-- **C6**: for every (duplicate-free) seed set and diagram,
`maximally_extend` initializes each seed as the sole member of its own part
(the seed stays at the head of its final part), repeats full passes until a
pass makes no new assignment, returns a fixed point of the propagation rule
(one more full pass returns the state unchanged), and a crossing whose two
sides are both already colored never triggers any propagation. -/
theorem claim6_propagation_fixed_point {kd : KnotDict} {seeds : List Char}
    (hnd : seeds.Nodup) :
    (∀ s ∈ seeds, partList s (initState seeds) = [s]
      ∧ ∃ t, partList s (maximallyExtend seeds kd) = s :: t)
    ∧ processSeedsAux kd (extFuel kd seeds) seeds (maximallyExtend seeds kd)
        = some (maximallyExtend seeds kd)
    ∧ (maximallyExtend seeds kd).newColoring = false
    ∧ ∀ (st : ColorState) (c : Char × Char), c.1 ∈ st.colored → c.2 ∈ st.colored →
        processCrossing st c = st := by
  obtain ⟨_, _, hgrows, hnc⟩ := maximallyExtend_spec (k := kd) hnd
  refine ⟨?_, maximallyExtend_fixed hnd, hnc, ?_⟩
  · intro s hs
    have hinit : partList s (initState seeds) = [s] := by
      unfold partList initState
      rw [pyDedup_eq_of_nodup [] seeds hnd (by intro x _ hx; cases hx)]
      exact partsVal_map_singleton seeds s hs
    obtain ⟨t, ht⟩ := hgrows.parts s
    exact ⟨hinit, t, by rw [ht, hinit]; rfl⟩
  · intro st c h1 h2
    exact processCrossing_both_colored h1 h2

/-- **C6** (witness): the fixed-point conjunct of the propagation theorem
at a concrete three-strand diagram with seeds `A`, `B`. -/
theorem claim6_fixed_point_witness :
    processSeedsAux [('A', ([], [('A', 'C')])), ('B', ([], [('B', 'C')])), ('C', ([], []))]
        (extFuel [('A', ([], [('A', 'C')])), ('B', ([], [('B', 'C')])), ('C', ([], []))]
          ['A', 'B'])
        ['A', 'B']
        (maximallyExtend ['A', 'B']
          [('A', ([], [('A', 'C')])), ('B', ([], [('B', 'C')])), ('C', ([], []))])
      = some (maximallyExtend ['A', 'B']
          [('A', ([], [('A', 'C')])), ('B', ([], [('B', 'C')])), ('C', ([], []))]) :=
  (claim6_propagation_fixed_point (by decide)).2.1

/-- **C7** (counterexample): identical part contents are *not* guaranteed
across visit orders.  With the diagram `A over (A, C)`, `B over (B, C)` and
the same seed set `{A, B}`, processing `A`'s crossing first puts `C` in
`A`'s part, processing `B`'s first puts `C` in `B`'s part: the runs agree on
the colored set but not on part contents. -/
theorem claim7_order_counterexample :
    partList 'A' (maximallyExtend ['A', 'B']
        [('A', ([], [('A', 'C')])), ('B', ([], [('B', 'C')])), ('C', ([], []))])
      = ['A', 'C']
    ∧ partList 'A' (maximallyExtend ['B', 'A']
        [('A', ([], [('A', 'C')])), ('B', ([], [('B', 'C')])), ('C', ([], []))])
      = ['A']
    ∧ (['A', 'C'] : List Char) ≠ ['A'] :=
  ⟨rfl, rfl, by decide⟩

/-- **C7** (amended): what is order-independent is the colored *set*: two
runs of the closure whose (duplicate-free) seed tuples contain the same
seeds produce the same set of colored strands, because both compute the
least set containing the seeds and closed under the propagation rule.  Part
contents may differ between the runs, as the counterexample shows. -/
theorem claim7_colored_set_order_independent {kd : KnotDict} {seeds1 seeds2 : List Char}
    (h1 : seeds1.Nodup) (h2 : seeds2.Nodup) (hset : ∀ x, x ∈ seeds1 ↔ x ∈ seeds2) :
    sameSet (maximallyExtend seeds1 kd).colored (maximallyExtend seeds2 kd).colored = true := by
  unfold sameSet
  rw [Bool.and_eq_true, decide_eq_true_eq, decide_eq_true_eq]
  constructor
  · exact maximallyExtend_sub_closed h1 (maximallyExtend_closed h2)
      (fun s hs => maximallyExtend_seeds_colored h2 ((hset s).mp hs))
  · exact maximallyExtend_sub_closed h2 (maximallyExtend_closed h1)
      (fun s hs => maximallyExtend_seeds_colored h1 ((hset s).mpr hs))

/-- **C7** (witness): the colored sets of the two differently-ordered runs
of the counterexample diagram coincide. -/
theorem claim7_colored_set_witness :
    sameSet (maximallyExtend ['A', 'B']
        [('A', ([], [('A', 'C')])), ('B', ([], [('B', 'C')])), ('C', ([], []))]).colored
      (maximallyExtend ['B', 'A']
        [('A', ([], [('A', 'C')])), ('B', ([], [('B', 'C')])), ('C', ([], []))]).colored
      = true :=
  claim7_colored_set_order_independent (by decide) (by decide)
    (by intro x; simp only [List.mem_cons, List.not_mem_nil, or_false]; tauto)

/-- **C8**: throughout every propagation trial the color parts are pairwise
disjoint — initially, after every single crossing step (which also never
removes a strand from a part), and at the final state — and a strand in the
final partition belongs to exactly one part, so a strand, once colored, is
never reassigned to a different part within the trial. -/
theorem claim8_parts_disjoint_never_reassigned {kd : KnotDict} {seeds : List Char}
    (hnd : seeds.Nodup) :
    ((initState seeds).parts.Pairwise fun a b => ∀ x ∈ a.2, x ∉ b.2)
    ∧ (∀ (st : ColorState) (c : Char × Char),
        StOk seeds (seeds ++ allMembers kd) st →
        c.1 ∈ seeds ++ allMembers kd → c.2 ∈ seeds ++ allMembers kd →
        (((processCrossing st c).parts.Pairwise fun a b => ∀ x ∈ a.2, x ∉ b.2)
          ∧ ∀ col x, x ∈ partList col st → x ∈ partList col (processCrossing st c)))
    ∧ ((maximallyExtend seeds kd).parts.Pairwise fun a b => ∀ x ∈ a.2, x ∉ b.2)
    ∧ (∀ col x, x ∈ partList col (initState seeds) →
        x ∈ partList col (maximallyExtend seeds kd))
    ∧ (∀ col1 col2 x, x ∈ partList col1 (maximallyExtend seeds kd) →
        x ∈ partList col2 (maximallyExtend seeds kd) → col1 = col2) := by
  obtain ⟨_, hok, hgrows, _⟩ := maximallyExtend_spec (k := kd) hnd
  refine ⟨(initState_StOk hnd kd).disj, ?_, hok.disj, ?_, ?_⟩
  · intro st c h hc1 hc2
    refine ⟨(StOk_processCrossing h hnd hc1 hc2).disj, ?_⟩
    intro col x hx
    obtain ⟨t, ht⟩ := (processCrossing_grows st c).parts col
    rw [ht]
    exact List.mem_append_left t hx
  · intro col x hx
    obtain ⟨t, ht⟩ := hgrows.parts col
    rw [ht]
    exact List.mem_append_left t hx
  · intro col1 col2 x hx1 hx2
    exact partsVal_unique hok.disj hx1 hx2

/-- **C8** (witness): disjointness of the final parts on the concrete
three-strand diagram with seeds `A`, `B`. -/
theorem claim8_disjoint_witness :
    (maximallyExtend ['A', 'B']
        [('A', ([], [('A', 'C')])), ('B', ([], [('B', 'C')])), ('C', ([], []))]).parts.Pairwise
      (fun a b => ∀ x ∈ a.2, x ∉ b.2) :=
  (claim8_parts_disjoint_never_reassigned (by decide)).2.2.1

/-! ## Claim C1: the width search -/

theorem tryExtensions_iff (kd : KnotDict) (strands seeds coloredSet : List Char) :
    ∀ ps : List Char, tryExtensions kd strands seeds coloredSet ps = true ↔
      ∃ p ∈ ps, p ∉ coloredSet ∧
        sameSet (coloredUnion (maximallyExtend (seeds ++ [p]) kd).parts) strands = true := by
  intro ps
  induction ps with
  | nil =>
    simp [tryExtensions]
  | cons p rest ih =>
    unfold tryExtensions
    by_cases hp : p ∈ coloredSet
    · rw [if_pos hp, ih]
      constructor
      · rintro ⟨q, hq, hqn, hqs⟩
        exact ⟨q, List.mem_cons_of_mem p hq, hqn, hqs⟩
      · rintro ⟨q, hq, hqn, hqs⟩
        rcases List.mem_cons.mp hq with rfl | hq2
        · exact absurd hp hqn
        · exact ⟨q, hq2, hqn, hqs⟩
    · rw [if_neg hp]
      by_cases hs : sameSet (coloredUnion (maximallyExtend (seeds ++ [p]) kd).parts) strands = true
      · rw [if_pos hs]
        simp only [true_iff]
        exact ⟨p, List.mem_cons_self p rest, hp, hs⟩
      · rw [if_neg hs]
        have hs' : sameSet (coloredUnion (maximallyExtend (seeds ++ [p]) kd).parts) strands
            = false := by
          cases hb : sameSet (coloredUnion (maximallyExtend (seeds ++ [p]) kd).parts) strands
          · rfl
          · exact absurd hb hs
        rw [ih]
        constructor
        · rintro ⟨q, hq, hqn, hqs⟩
          exact ⟨q, List.mem_cons_of_mem p hq, hqn, hqs⟩
        · rintro ⟨q, hq, hqn, hqs⟩
          rcases List.mem_cons.mp hq with rfl | hq2
          · rw [hqs] at hs'
            cases hs'
          · exact ⟨q, hq2, hqn, hqs⟩

theorem searchLoop_mem (kd : KnotDict) (strands : List Char) :
    ∀ sl : List (List Char), searchLoop kd strands sl = "28" ∨ searchLoop kd strands sl = "32" := by
  intro sl
  induction sl with
  | nil => exact Or.inr rfl
  | cons seeds rest ih =>
    unfold searchLoop
    by_cases hc : countMulticoloredCrossings (maximallyExtend seeds kd).parts kd > 0
    · rw [if_pos hc]
      by_cases ht : tryExtensions kd strands seeds
          (coloredUnion (maximallyExtend seeds kd).parts) strands = true
      · rw [if_pos ht]
        exact Or.inl rfl
      · rw [if_neg ht]
        exact ih
    · rw [if_neg hc]
      exact ih

theorem searchLoop_28_iff (kd : KnotDict) (strands : List Char) :
    ∀ sl : List (List Char), searchLoop kd strands sl = "28" ↔
      ∃ seeds ∈ sl, 0 < countMulticoloredCrossings (maximallyExtend seeds kd).parts kd ∧
        tryExtensions kd strands seeds (coloredUnion (maximallyExtend seeds kd).parts) strands
          = true := by
  intro sl
  induction sl with
  | nil =>
    constructor
    · intro h
      have h32 : ("32" : String) = "28" := h
      exact absurd h32 (by decide)
    · rintro ⟨seeds, hmem, _⟩
      cases hmem
  | cons seeds rest ih =>
    unfold searchLoop
    by_cases hc : countMulticoloredCrossings (maximallyExtend seeds kd).parts kd > 0
    · rw [if_pos hc]
      by_cases ht : tryExtensions kd strands seeds
          (coloredUnion (maximallyExtend seeds kd).parts) strands = true
      · rw [if_pos ht]
        simp only [true_iff]
        exact ⟨seeds, List.mem_cons_self seeds rest, hc, ht⟩
      · rw [if_neg ht, ih]
        constructor
        · rintro ⟨q, hq, hqc, hqt⟩
          exact ⟨q, List.mem_cons_of_mem seeds hq, hqc, hqt⟩
        · rintro ⟨q, hq, hqc, hqt⟩
          rcases List.mem_cons.mp hq with rfl | hq2
          · exact absurd hqt ht
          · exact ⟨q, hq2, hqc, hqt⟩
    · rw [if_neg hc, ih]
      constructor
      · rintro ⟨q, hq, hqc, hqt⟩
        exact ⟨q, List.mem_cons_of_mem seeds hq, hqc, hqt⟩
      · rintro ⟨q, hq, hqc, hqt⟩
        rcases List.mem_cons.mp hq with rfl | hq2
        · exact absurd hqc hc
        · exact ⟨q, hq2, hqc, hqt⟩

/-- **C1**: on a Gauss code that parses and whose knot dictionary is built
without fault and holds at least 3 strands, `calc` returns exactly the
string `"28"` or the string `"32"` and nothing else, and it returns `"28"`
if and only if some 3-element seed subset propagates to a conflict count
greater than 0 and extending it by one strand outside its colored union
propagates to the full strand set (the loop returning on the first such
success). -/
theorem claim1_calc_width_bound {raw : List String} {gc : List Int} {kd : KnotDict}
    {fuel : Nat}
    (hparse : processGaussCode raw = Except.ok gc)
    (hkd : createKnotDictionaryF gc fuel = some (Except.ok kd))
    (hstrands : 3 ≤ (keysOf kd).length) :
    calcF fuel raw
        = some (Except.ok (searchLoop kd (keysOf kd) (combinations 3 (keysOf kd))))
    ∧ (searchLoop kd (keysOf kd) (combinations 3 (keysOf kd)) = "28"
        ∨ searchLoop kd (keysOf kd) (combinations 3 (keysOf kd)) = "32")
    ∧ (searchLoop kd (keysOf kd) (combinations 3 (keysOf kd)) = "28" ↔ widthSuccess kd) := by
  refine ⟨?_, searchLoop_mem kd (keysOf kd) _, ?_⟩
  · simp only [calcF, hparse, hkd]
  · rw [searchLoop_28_iff]
    unfold widthSuccess
    constructor
    · rintro ⟨seeds, hmem, hc, ht⟩
      exact ⟨seeds, hmem, hc, (tryExtensions_iff kd (keysOf kd) seeds _ (keysOf kd)).mp ht⟩
    · rintro ⟨seeds, hmem, hc, hex⟩
      exact ⟨seeds, hmem, hc, (tryExtensions_iff kd (keysOf kd) seeds _ (keysOf kd)).mpr hex⟩

/-- **C1** (witness): the characterization applied to the 3-crossing code;
its search returns `"32"`. -/
theorem claim1_calc_witness :
    calcF 30 ["-1", "2", "-3", "1", "-2", "3"]
        = some (Except.ok (searchLoop
            [('A', [-1, 2, -3], [('C', 'B')]), ('B', [-3, 1, -2], [('A', 'C')]),
             ('C', [-2, 3, -1], [('B', 'A')])]
            (keysOf [('A', [-1, 2, -3], [('C', 'B')]), ('B', [-3, 1, -2], [('A', 'C')]),
             ('C', [-2, 3, -1], [('B', 'A')])])
            (combinations 3 (keysOf [('A', [-1, 2, -3], [('C', 'B')]),
              ('B', [-3, 1, -2], [('A', 'C')]), ('C', [-2, 3, -1], [('B', 'A')])]))))
    ∧ (searchLoop [('A', [-1, 2, -3], [('C', 'B')]), ('B', [-3, 1, -2], [('A', 'C')]),
             ('C', [-2, 3, -1], [('B', 'A')])]
          (keysOf [('A', [-1, 2, -3], [('C', 'B')]), ('B', [-3, 1, -2], [('A', 'C')]),
             ('C', [-2, 3, -1], [('B', 'A')])])
          (combinations 3 (keysOf [('A', [-1, 2, -3], [('C', 'B')]),
              ('B', [-3, 1, -2], [('A', 'C')]), ('C', [-2, 3, -1], [('B', 'A')])])) = "28"
        ∨ searchLoop [('A', [-1, 2, -3], [('C', 'B')]), ('B', [-3, 1, -2], [('A', 'C')]),
             ('C', [-2, 3, -1], [('B', 'A')])]
          (keysOf [('A', [-1, 2, -3], [('C', 'B')]), ('B', [-3, 1, -2], [('A', 'C')]),
             ('C', [-2, 3, -1], [('B', 'A')])])
          (combinations 3 (keysOf [('A', [-1, 2, -3], [('C', 'B')]),
              ('B', [-3, 1, -2], [('A', 'C')]), ('C', [-2, 3, -1], [('B', 'A')])])) = "32")
    ∧ (searchLoop [('A', [-1, 2, -3], [('C', 'B')]), ('B', [-3, 1, -2], [('A', 'C')]),
             ('C', [-2, 3, -1], [('B', 'A')])]
          (keysOf [('A', [-1, 2, -3], [('C', 'B')]), ('B', [-3, 1, -2], [('A', 'C')]),
             ('C', [-2, 3, -1], [('B', 'A')])])
          (combinations 3 (keysOf [('A', [-1, 2, -3], [('C', 'B')]),
              ('B', [-3, 1, -2], [('A', 'C')]), ('C', [-2, 3, -1], [('B', 'A')])])) = "28"
        ↔ widthSuccess [('A', [-1, 2, -3], [('C', 'B')]), ('B', [-3, 1, -2], [('A', 'C')]),
             ('C', [-2, 3, -1], [('B', 'A')])]) :=
  claim1_calc_width_bound rfl rfl (by decide)

/-! ## Claim C10: termination of the strand scan -/

theorem findStrandsLoop_succ (gc : List Int) (fuel i : Nat) (acc : List (List Int)) :
    findStrandsLoop gc (fuel + 1) i acc
      = if gcAt gc i < 0 then
          (if strandFrom gc i ∈ acc then some acc
           else findStrandsLoop gc fuel (nextUnderIdx gc ((i + 1) % gc.length))
             (acc ++ [strandFrom gc i]))
        else findStrandsLoop gc fuel ((i + 1) % gc.length) acc := rfl

theorem findStrandsLoop_none_of_nonneg {gc : List Int} (hpos : ∀ x ∈ gc, ¬ x < 0) :
    ∀ (fuel i : Nat) (acc : List (List Int)), findStrandsLoop gc fuel i acc = none := by
  intro fuel
  induction fuel with
  | zero => intro i acc; rfl
  | succ fuel ih =>
    intro i acc
    rw [findStrandsLoop_succ]
    have hnotneg : ¬ gcAt gc i < 0 := by
      unfold gcAt
      by_cases hi : i < gc.length
      · rw [List.getD_eq_getElem _ _ hi]
        exact hpos _ (List.getElem_mem hi)
      · rw [List.getD_eq_default _ _ (by omega)]
        omega
    rw [if_neg hnotneg]
    exact ih _ acc

theorem nextUnderIdx_lt {gc : List Int} {start : Nat} (hs : start < gc.length) :
    nextUnderIdx gc start < gc.length := by
  unfold nextUnderIdx
  cases hf : (List.range gc.length).find? (fun t => gcAt gc ((start + t) % gc.length) ≤ 0) with
  | none => exact hs
  | some t => exact Nat.mod_lt _ (by omega)

theorem findStrandsLoop_skip {g : List Int} :
    ∀ (k fuel i : Nat) (acc : List (List Int)), i < g.length →
    (∀ t, t < k → ¬ gcAt g ((i + t) % g.length) < 0) →
    findStrandsLoop g (fuel + k) i acc
      = findStrandsLoop g fuel ((i + k) % g.length) acc := by
  intro k
  induction k with
  | zero =>
    intro fuel i acc hi _
    simp [Nat.mod_eq_of_lt hi]
  | succ k ih =>
    intro fuel i acc hi hall
    have h0 : ¬ gcAt g i < 0 := by
      have h00 := hall 0 (by omega)
      rwa [Nat.add_zero, Nat.mod_eq_of_lt hi] at h00
    have hstep : findStrandsLoop g (fuel + k + 1) i acc
        = findStrandsLoop g (fuel + k) ((i + 1) % g.length) acc := by
      rw [findStrandsLoop_succ, if_neg h0]
    have hL : 0 < g.length := by omega
    have harith : ∀ t : Nat,
        ((i + 1) % g.length + t) % g.length = (i + (t + 1)) % g.length := by
      intro t
      rw [Nat.mod_add_mod]
      congr 1
      omega
    have hall2 : ∀ t, t < k → ¬ gcAt g (((i + 1) % g.length + t) % g.length) < 0 := by
      intro t ht
      rw [harith t]
      exact hall (t + 1) (by omega)
    have hrec := ih fuel ((i + 1) % g.length) acc (Nat.mod_lt _ hL) hall2
    rw [show fuel + (k + 1) = fuel + k + 1 from by omega, hstep, hrec, harith k]

theorem findStrandsLoop_break {gc : List Int} {i : Nat} {acc : List (List Int)}
    (hneg : gcAt gc i < 0) (hmem : strandFrom gc i ∈ acc) :
    findStrandsLoop gc 1 i acc = some acc := by
  rw [show (1 : Nat) = 0 + 1 from rfl, findStrandsLoop_succ, if_pos hneg, if_pos hmem]

theorem strandFrom_mem_image {gc : List Int} {i : Nat} (hi : i < gc.length)
    (hneg : gcAt gc i < 0) :
    strandFrom gc i ∈ (negPositions gc).map (strandFrom gc) := by
  refine List.mem_map_of_mem _ ?_
  unfold negPositions
  rw [List.mem_filter]
  exact ⟨List.mem_range.mpr hi, by simpa using hneg⟩

theorem exists_neg_pos {gc : List Int} (hneg : ∃ x ∈ gc, x < 0) :
    ∃ p, p < gc.length ∧ gcAt gc p < 0 := by
  obtain ⟨x, hx, hxneg⟩ := hneg
  obtain ⟨p, hp, hpx⟩ := List.mem_iff_getElem.mp hx
  refine ⟨p, hp, ?_⟩
  unfold gcAt
  rw [List.getD_eq_getElem _ _ hp, hpx]
  exact hxneg

theorem exists_reach_neg {gc : List Int} (hneg : ∃ x ∈ gc, x < 0) (e : Nat)
    (he : e < gc.length) :
    ∃ k, gcAt gc ((e + k) % gc.length) < 0 := by
  obtain ⟨p, hp, hpneg⟩ := exists_neg_pos hneg
  by_cases hle : e ≤ p
  · refine ⟨p - e, ?_⟩
    rw [show e + (p - e) = p from by omega, Nat.mod_eq_of_lt hp]
    exact hpneg
  · refine ⟨p + gc.length - e, ?_⟩
    rw [show e + (p + gc.length - e) = p + gc.length from by omega,
      Nat.add_mod_right, Nat.mod_eq_of_lt hp]
    exact hpneg

theorem findStrandsLoop_terminates {gc : List Int} (hneg : ∃ x ∈ gc, x < 0) :
    ∀ (n i : Nat) (acc : List (List Int)), i < gc.length → gcAt gc i < 0 →
    acc.Nodup → (∀ s ∈ acc, s ∈ (negPositions gc).map (strandFrom gc)) →
    (negPositions gc).length ≤ acc.length + n →
    ∃ fuel r, findStrandsLoop gc fuel i acc = some r := by
  intro n
  induction n with
  | zero =>
    intro i acc hi hnegi hnd hsub hlen
    by_cases hmem : strandFrom gc i ∈ acc
    · exact ⟨1, acc, findStrandsLoop_break hnegi hmem⟩
    · exfalso
      have hnd2 : (acc ++ [strandFrom gc i]).Nodup :=
        hnd.append (List.nodup_singleton _)
          (by intro y hy hyz; rw [List.mem_singleton.mp hyz] at hy; exact hmem hy)
      have hsub2 : ∀ s ∈ acc ++ [strandFrom gc i],
          s ∈ (negPositions gc).map (strandFrom gc) := by
        intro s hs
        rcases List.mem_append.mp hs with hm | hm
        · exact hsub s hm
        · rw [List.mem_singleton.mp hm]
          exact strandFrom_mem_image hi hnegi
      have := nodup_subset_length hnd2 hsub2
      rw [List.length_append, List.length_map] at this
      simp only [List.length_singleton] at this
      omega
  | succ n ih =>
    intro i acc hi hnegi hnd hsub hlen
    by_cases hmem : strandFrom gc i ∈ acc
    · exact ⟨1, acc, findStrandsLoop_break hnegi hmem⟩
    · have hL : 0 < gc.length := by omega
      have he : nextUnderIdx gc ((i + 1) % gc.length) < gc.length :=
        nextUnderIdx_lt (Nat.mod_lt _ hL)
      have hex := exists_reach_neg hneg (nextUnderIdx gc ((i + 1) % gc.length)) he
      have htlt : (nextUnderIdx gc ((i + 1) % gc.length) + Nat.find hex) % gc.length
          < gc.length := Nat.mod_lt _ hL
      have htneg := Nat.find_spec hex
      have hnd2 : (acc ++ [strandFrom gc i]).Nodup :=
        hnd.append (List.nodup_singleton _)
          (by intro y hy hyz; rw [List.mem_singleton.mp hyz] at hy; exact hmem hy)
      have hsub2 : ∀ s ∈ acc ++ [strandFrom gc i],
          s ∈ (negPositions gc).map (strandFrom gc) := by
        intro s hs
        rcases List.mem_append.mp hs with hm | hm
        · exact hsub s hm
        · rw [List.mem_singleton.mp hm]
          exact strandFrom_mem_image hi hnegi
      obtain ⟨fuel, r, hfr⟩ := ih _ (acc ++ [strandFrom gc i]) htlt htneg hnd2 hsub2 (by
        rw [List.length_append]
        simp only [List.length_singleton]
        omega)
      refine ⟨fuel + Nat.find hex + 1, r, ?_⟩
      rw [findStrandsLoop_succ, if_pos hnegi, if_neg hmem]
      rw [findStrandsLoop_skip (Nat.find hex) fuel _ _ he
        (fun t ht => Nat.find_min hex ht)]
      exact hfr

/-- **C10**: for a nonempty Gauss code, `find_strands` terminates if and
only if the code contains at least one negative entry.  With no negative
entry the scanning loop only ever advances `i` modulo the length and never
records a strand, so it runs forever (`none` at every fuel); with a
negative entry the scan reaches an under-pass and records strands until one
repeats, so some finite fuel returns a result. -/
theorem claim10_find_strands_termination {gc : List Int} (hne : gc ≠ []) :
    (∃ fuel r, findStrandsF gc fuel = some r) ↔ ∃ x ∈ gc, x < 0 := by
  have hnotempty : gc.isEmpty = false := by
    cases gc with
    | nil => exact absurd rfl hne
    | cons a l => rfl
  constructor
  · rintro ⟨fuel, r, hfr⟩
    by_contra hno
    push_neg at hno
    unfold findStrandsF at hfr
    rw [hnotempty] at hfr
    simp only [Bool.false_eq_true, if_false] at hfr
    rw [findStrandsLoop_none_of_nonneg (by intro x hx; exact not_lt.mpr (hno x hx)) fuel 0 []]
      at hfr
    cases hfr
  · intro hneg
    have hL : 0 < gc.length := by
      cases gc with
      | nil => exact absurd rfl hne
      | cons a l => simp
    have hex := exists_reach_neg hneg 0 hL
    have htlt : (0 + Nat.find hex) % gc.length < gc.length := Nat.mod_lt _ hL
    have htneg := Nat.find_spec hex
    obtain ⟨fuel, r, hfr⟩ := findStrandsLoop_terminates hneg (negPositions gc).length
      _ [] htlt htneg List.nodup_nil (by intro s hs; cases hs) (by simp)
    have hrun : findStrandsLoop gc (fuel + Nat.find hex) 0 [] = some r := by
      rw [findStrandsLoop_skip (Nat.find hex) fuel 0 [] hL
        (fun t ht => Nat.find_min hex ht)]
      exact hfr
    unfold findStrandsF
    rw [hnotempty]
    simp only [Bool.false_eq_true, if_false]
    refine ⟨fuel + Nat.find hex, ?_⟩
    rw [hrun]
    show ∃ x, (if r.length ≤ 26 then some (Except.ok (letterList.zip r))
        else some (Except.error PyErr.indexError)) = some x
    by_cases h26 : r.length ≤ 26
    · rw [if_pos h26]
      exact ⟨_, rfl⟩
    · rw [if_neg h26]
      exact ⟨_, rfl⟩

/-- **C10** (witness): the code `[-1, 1]` is nonempty and has a negative
entry, so the scan terminates on it. -/
theorem claim10_termination_witness :
    (([-1, 1] : List Int) ≠ [] ∧ (-1 : Int) ∈ ([-1, 1] : List Int) ∧ (-1 : Int) < 0)
    ∧ ∃ fuel r, findStrandsF [-1, 1] fuel = some r :=
  ⟨by decide, (claim10_find_strands_termination (by decide)).mpr ⟨-1, by decide, by decide⟩⟩

/-! ## Claim C9: the strand decomposition of a well-formed code -/

theorem range_find?_eq :
    ∀ (n : Nat) (p : Nat → Bool) (t0 : Nat), t0 < n → p t0 = true →
    (∀ t, t < t0 → p t = false) →
    (List.range n).find? p = some t0 := by
  intro n
  induction n with
  | zero => intro p t0 h; omega
  | succ n ih =>
    intro p t0 ht0 hsat hmin
    rw [List.range_succ_eq_map, List.find?_cons]
    cases t0 with
    | zero =>
      rw [hsat]
    | succ t =>
      rw [hmin 0 (by omega)]
      show List.find? p (List.map Nat.succ (List.range n)) = some (t + 1)
      rw [List.find?_map]
      have hrec : List.find? (p ∘ Nat.succ) (List.range n) = some t :=
        ih (p ∘ Nat.succ) t (by omega) hsat (fun u hu => hmin (u + 1) (by omega))
      rw [hrec]
      rfl

theorem negPositions_sorted (gc : List Int) :
    (negPositions gc).Pairwise (· < ·) :=
  List.Pairwise.sublist (List.filter_sublist _) (List.pairwise_lt_range gc.length)

theorem negPositions_mem {gc : List Int} {q : Nat} :
    q ∈ negPositions gc ↔ q < gc.length ∧ gcAt gc q < 0 := by
  unfold negPositions
  rw [List.mem_filter, List.mem_range]
  constructor
  · rintro ⟨h1, h2⟩
    exact ⟨h1, by simpa using h2⟩
  · rintro ⟨h1, h2⟩
    exact ⟨h1, by simpa using h2⟩

theorem negPositions_getElem_lt {gc : List Int} {j : Nat}
    (hj : j < (negPositions gc).length) :
    (negPositions gc)[j] < gc.length :=
  (negPositions_mem.mp (List.getElem_mem hj)).1

theorem negPositions_getElem_neg {gc : List Int} {j : Nat}
    (hj : j < (negPositions gc).length) :
    gcAt gc (negPositions gc)[j] < 0 :=
  (negPositions_mem.mp (List.getElem_mem hj)).2

theorem negPositions_strict_mono {gc : List Int} {a b : Nat}
    (ha : a < (negPositions gc).length) (hb : b < (negPositions gc).length)
    (hab : a < b) : (negPositions gc)[a] < (negPositions gc)[b] :=
  (List.pairwise_iff_getElem.mp (negPositions_sorted gc)) a b ha hb hab

theorem not_mem_negPositions_between {gc : List Int} {j q : Nat}
    (hj1 : j + 1 < (negPositions gc).length)
    (h1 : (negPositions gc)[j] < q) (h2 : q < (negPositions gc)[j + 1]) :
    q ∉ negPositions gc := by
  intro hq
  obtain ⟨a, ha, hqa⟩ := List.mem_iff_getElem.mp hq
  by_cases hle : a ≤ j
  · have : (negPositions gc)[a] ≤ (negPositions gc)[j] := by
      rcases Nat.eq_or_lt_of_le hle with rfl | hlt
      · exact le_refl _
      · exact le_of_lt (negPositions_strict_mono ha (by omega) hlt)
    omega
  · have : (negPositions gc)[j + 1] ≤ (negPositions gc)[a] := by
      rcases Nat.eq_or_lt_of_le (show j + 1 ≤ a from by omega) with heq | hlt
      · subst heq
        exact le_refl _
      · exact le_of_lt (negPositions_strict_mono hj1 ha hlt)
    omega

theorem not_mem_negPositions_below {gc : List Int} {q : Nat}
    (hm : 0 < (negPositions gc).length) (h : q < (negPositions gc)[0]) :
    q ∉ negPositions gc := by
  intro hq
  obtain ⟨a, ha, hqa⟩ := List.mem_iff_getElem.mp hq
  have : (negPositions gc)[0] ≤ (negPositions gc)[a] := by
    cases a with
    | zero => exact le_refl _
    | succ a => exact le_of_lt (negPositions_strict_mono hm ha (by omega))
  omega

theorem not_mem_negPositions_above {gc : List Int} {q : Nat}
    (hm : 0 < (negPositions gc).length)
    (h : (negPositions gc).get ⟨(negPositions gc).length - 1, by omega⟩ < q) :
    q ∉ negPositions gc := by
  intro hq
  obtain ⟨a, ha, hqa⟩ := List.mem_iff_getElem.mp hq
  have hle : (negPositions gc)[a]
      ≤ (negPositions gc).get ⟨(negPositions gc).length - 1, by omega⟩ := by
    rcases Nat.eq_or_lt_of_le (show a ≤ (negPositions gc).length - 1 from by omega)
      with heq | hlt
    · subst heq
      simp only [List.get_eq_getElem]
      exact le_refl _
    · simp only [List.get_eq_getElem]
      exact le_of_lt (negPositions_strict_mono ha (by omega) hlt)
  omega

theorem not_underStop_of_not_mem {gc : List Int} (hnz : ∀ x ∈ gc, x ≠ 0) {q : Nat}
    (hq : q < gc.length) (hnm : q ∉ negPositions gc) :
    ¬ gcAt gc q ≤ 0 := by
  intro hle
  have hne : gcAt gc q ≠ 0 := by
    unfold gcAt
    rw [List.getD_eq_getElem _ _ hq]
    exact hnz _ (List.getElem_mem hq)
  exact hnm (negPositions_mem.mpr ⟨hq, by omega⟩)

theorem nextUnderIdx_eq {g : List Int} {s u : Nat} (ht0 : u < g.length)
    (hsat : gcAt g ((s + u) % g.length) ≤ 0)
    (hmin : ∀ t, t < u → ¬ gcAt g ((s + t) % g.length) ≤ 0) :
    nextUnderIdx g s = (s + u) % g.length := by
  unfold nextUnderIdx
  rw [range_find?_eq g.length _ u ht0 (by simpa using hsat)
    (fun t ht => by simpa using hmin t ht)]

theorem nextUnderIdx_np {gc : List Int} (hnz : ∀ x ∈ gc, x ≠ 0) {j : Nat}
    (hm : 2 ≤ (negPositions gc).length) (hj : j < (negPositions gc).length)
    (hj1 : (j + 1) % (negPositions gc).length < (negPositions gc).length) :
    nextUnderIdx gc (((negPositions gc)[j] + 1) % gc.length)
      = (negPositions gc)[(j + 1) % (negPositions gc).length] := by
  have hbL : (negPositions gc)[j] < gc.length := negPositions_getElem_lt hj
  have hL : 0 < gc.length := by omega
  by_cases hcase : j + 1 < (negPositions gc).length
  · have hmod : (j + 1) % (negPositions gc).length = j + 1 := Nat.mod_eq_of_lt hcase
    have hbq : (negPositions gc)[j] < (negPositions gc)[j + 1] :=
      negPositions_strict_mono hj hcase (by omega)
    have hqL : (negPositions gc)[j + 1] < gc.length := negPositions_getElem_lt hcase
    have hstart : ((negPositions gc)[j] + 1) % gc.length = (negPositions gc)[j] + 1 :=
      Nat.mod_eq_of_lt (by omega)
    rw [hstart]
    have hres := nextUnderIdx_eq (g := gc)
      (s := (negPositions gc)[j] + 1)
      (u := (negPositions gc)[j + 1] - ((negPositions gc)[j] + 1))
      (by omega)
      (by
        rw [show (negPositions gc)[j] + 1 + ((negPositions gc)[j + 1] - ((negPositions gc)[j] + 1))
            = (negPositions gc)[j + 1] from by omega, Nat.mod_eq_of_lt hqL]
        exact le_of_lt (negPositions_getElem_neg hcase))
      (by
        intro t ht
        have hpos : (negPositions gc)[j] + 1 + t < gc.length := by omega
        rw [Nat.mod_eq_of_lt hpos]
        refine not_underStop_of_not_mem hnz hpos ?_
        exact not_mem_negPositions_between hcase (by omega) (by omega))
    rw [hres]
    rw [show (negPositions gc)[j] + 1 + ((negPositions gc)[j + 1] - ((negPositions gc)[j] + 1))
        = (negPositions gc)[j + 1] from by omega, Nat.mod_eq_of_lt hqL]
    simp only [hmod]
  · have hjtop : j = (negPositions gc).length - 1 := by omega
    subst hjtop
    have hmod : ((negPositions gc).length - 1 + 1) % (negPositions gc).length = 0 := by
      rw [show (negPositions gc).length - 1 + 1 = (negPositions gc).length from by omega]
      exact Nat.mod_self _
    have h0L : (negPositions gc)[0] < gc.length := negPositions_getElem_lt (by omega)
    have h0neg : gcAt gc ((negPositions gc)[0]) < 0 := negPositions_getElem_neg (by omega)
    have hmax : (negPositions gc)[0] < (negPositions gc)[(negPositions gc).length - 1] :=
      negPositions_strict_mono (by omega) (by omega) (by omega)
    have habove : ∀ q, (negPositions gc)[(negPositions gc).length - 1] < q → q < gc.length →
        q ∉ negPositions gc := by
      intro q hq hqL
      refine not_mem_negPositions_above (by omega) ?_
      simp only [List.get_eq_getElem]
      exact hq
    by_cases hbl : (negPositions gc)[(negPositions gc).length - 1] + 1 < gc.length
    · have hstart : ((negPositions gc)[(negPositions gc).length - 1] + 1) % gc.length
          = (negPositions gc)[(negPositions gc).length - 1] + 1 := Nat.mod_eq_of_lt hbl
      rw [hstart]
      have hres := nextUnderIdx_eq (g := gc)
        (s := (negPositions gc)[(negPositions gc).length - 1] + 1)
        (u := gc.length - ((negPositions gc)[(negPositions gc).length - 1] + 1)
          + (negPositions gc)[0])
        (by omega)
        (by
          rw [show (negPositions gc)[(negPositions gc).length - 1] + 1
              + (gc.length - ((negPositions gc)[(negPositions gc).length - 1] + 1)
                + (negPositions gc)[0])
              = gc.length + (negPositions gc)[0] from by omega,
            Nat.add_mod_left, Nat.mod_eq_of_lt h0L]
          exact le_of_lt h0neg)
        (by
          intro t ht
          by_cases htf : (negPositions gc)[(negPositions gc).length - 1] + 1 + t < gc.length
          · rw [Nat.mod_eq_of_lt htf]
            refine not_underStop_of_not_mem hnz htf ?_
            exact habove _ (by omega) htf
          · have hdec : (negPositions gc)[(negPositions gc).length - 1] + 1 + t
                = ((negPositions gc)[(negPositions gc).length - 1] + 1 + t - gc.length)
                  + gc.length := by omega
            have hsmall : (negPositions gc)[(negPositions gc).length - 1] + 1 + t - gc.length
                < (negPositions gc)[0] := by omega
            rw [hdec, Nat.add_mod_right, Nat.mod_eq_of_lt (by omega)]
            refine not_underStop_of_not_mem hnz (by omega) ?_
            exact not_mem_negPositions_below (by omega) hsmall)
      rw [hres]
      rw [show (negPositions gc)[(negPositions gc).length - 1] + 1
          + (gc.length - ((negPositions gc)[(negPositions gc).length - 1] + 1)
            + (negPositions gc)[0])
          = gc.length + (negPositions gc)[0] from by omega,
        Nat.add_mod_left, Nat.mod_eq_of_lt h0L]
      simp only [hmod]
    · have hble : (negPositions gc)[(negPositions gc).length - 1] + 1 = gc.length := by
        have : (negPositions gc)[(negPositions gc).length - 1] < gc.length :=
          negPositions_getElem_lt (by omega)
        omega
      have hstart : ((negPositions gc)[(negPositions gc).length - 1] + 1) % gc.length = 0 := by
        rw [hble, Nat.mod_self]
      rw [hstart]
      have hres := nextUnderIdx_eq (g := gc) (s := 0) (u := (negPositions gc)[0])
        (by omega)
        (by
          rw [Nat.zero_add, Nat.mod_eq_of_lt h0L]
          exact le_of_lt h0neg)
        (by
          intro t ht
          rw [Nat.zero_add, Nat.mod_eq_of_lt (by omega)]
          refine not_underStop_of_not_mem hnz (by omega) ?_
          exact not_mem_negPositions_below (by omega) ht)
      rw [hres, Nat.zero_add, Nat.mod_eq_of_lt h0L]
      simp only [hmod]

theorem strandSlice_head? {gc : List Int} {b e : Nat} (hb : b < gc.length) :
    (strandSlice gc b e).head? = some (gcAt gc b) := by
  have hgb : gcAt gc b = gc[b] := by
    unfold gcAt
    rw [List.getD_eq_getElem _ _ hb]
  unfold strandSlice
  by_cases hw : e < b
  · rw [if_pos hw, List.head?_append, List.head?_drop, List.getElem?_eq_getElem hb, hgb]
    rfl
  · rw [if_neg hw, List.head?_take, if_neg (show ¬ e + 1 - b = 0 from by omega),
      List.head?_drop, List.getElem?_eq_getElem hb, hgb]

theorem strandSlice_getLast? {gc : List Int} {b e : Nat} (hb : b < gc.length)
    (he : e < gc.length) :
    (strandSlice gc b e).getLast? = some (gcAt gc e) := by
  have hge : gcAt gc e = gc[e] := by
    unfold gcAt
    rw [List.getD_eq_getElem _ _ he]
  unfold strandSlice
  by_cases hw : e < b
  · rw [if_pos hw, List.getLast?_append, List.getLast?_take,
      if_neg (show ¬ e + 1 = 0 from by omega),
      show e + 1 - 1 = e from by omega, List.getElem?_eq_getElem he, hge]
    rfl
  · rw [if_neg hw, List.getLast?_take, if_neg (show ¬ e + 1 - b = 0 from by omega),
      show e + 1 - b - 1 = e - b from by omega, List.getElem?_drop,
      show b + (e - b) = e from by omega, List.getElem?_eq_getElem he, hge]
    rfl

theorem wf_nodup {gc : List Int} (hwf : WellFormedGauss gc) : gc.Nodup := by
  rw [List.nodup_iff_count_le_one]
  intro a
  by_cases ha : a ∈ gc
  · exact le_of_eq ((hwf.2 a ha).2.1)
  · rw [List.count_eq_zero_of_not_mem ha]
    omega

theorem getElem_idx_congr {α : Type} {l : List α} {a b : Nat} (h : a = b)
    (ha : a < l.length) (hb : b < l.length) : l[a] = l[b] := by
  subst h
  rfl

theorem findStrandsLoop_mono {gc : List Int} :
    ∀ (fuel fuel2 i : Nat) (acc r : List (List Int)), fuel ≤ fuel2 →
    findStrandsLoop gc fuel i acc = some r → findStrandsLoop gc fuel2 i acc = some r := by
  intro fuel
  induction fuel with
  | zero =>
    intro fuel2 i acc r hle h
    have h0 : findStrandsLoop gc 0 i acc = none := rfl
    rw [h0] at h
    cases h
  | succ fuel ih =>
    intro fuel2 i acc r hle h
    obtain ⟨f2, rfl⟩ : ∃ f2, fuel2 = f2 + 1 := ⟨fuel2 - 1, by omega⟩
    rw [findStrandsLoop_succ] at h ⊢
    by_cases hneg : gcAt gc i < 0
    · rw [if_pos hneg] at h ⊢
      by_cases hmem : strandFrom gc i ∈ acc
      · rw [if_pos hmem] at h ⊢
        exact h
      · rw [if_neg hmem] at h ⊢
        exact ih f2 _ _ r (by omega) h
    · rw [if_neg hneg] at h ⊢
      exact ih f2 _ _ r (by omega) h

theorem findStrandsLoop_chain {gc : List Int} (hnz : ∀ x ∈ gc, x ≠ 0) (hnd : gc.Nodup)
    (hm : 2 ≤ (negPositions gc).length) :
    ∀ (k j : Nat), j + k = (negPositions gc).length → 1 ≤ j →
    ∀ (hidx : j % (negPositions gc).length < (negPositions gc).length),
    findStrandsLoop gc (k + 1) ((negPositions gc)[j % (negPositions gc).length])
      (((negPositions gc).take j).map (strandFrom gc))
      = some ((negPositions gc).map (strandFrom gc)) := by
  intro k
  induction k with
  | zero =>
    intro j hjk hj1 hidx
    have hj : j = (negPositions gc).length := by omega
    have hmod : j % (negPositions gc).length = 0 := by
      rw [hj, Nat.mod_self]
    have htake : (negPositions gc).take j = negPositions gc := by
      rw [hj]
      exact List.take_length _
    rw [getElem_idx_congr hmod hidx (by omega), htake]
    have h0m : 0 < (negPositions gc).length := by omega
    have hneg : gcAt gc (negPositions gc)[0] < 0 := negPositions_getElem_neg h0m
    have hmem : strandFrom gc (negPositions gc)[0]
        ∈ (negPositions gc).map (strandFrom gc) :=
      List.mem_map_of_mem _ (List.getElem_mem h0m)
    exact findStrandsLoop_break hneg hmem
  | succ k ih =>
    intro j hjk hj1 hidx
    have hjm : j < (negPositions gc).length := by omega
    have hmod : j % (negPositions gc).length = j := Nat.mod_eq_of_lt hjm
    rw [getElem_idx_congr hmod hidx hjm]
    have hneg : gcAt gc (negPositions gc)[j] < 0 := negPositions_getElem_neg hjm
    have hjL : (negPositions gc)[j] < gc.length := negPositions_getElem_lt hjm
    rw [show k + 1 + 1 = (k + 1) + 1 from rfl, findStrandsLoop_succ, if_pos hneg]
    have hnotmem : strandFrom gc (negPositions gc)[j]
        ∉ ((negPositions gc).take j).map (strandFrom gc) := by
      intro hmem
      obtain ⟨p, hp, hps⟩ := List.mem_map.mp hmem
      obtain ⟨a, ham, hpa⟩ := List.mem_take_iff_getElem.mp hp
      have haj : a < j := (Nat.lt_min.mp ham).1
      have ham2 : a < (negPositions gc).length := (Nat.lt_min.mp ham).2
      have haL : (negPositions gc)[a] < gc.length := negPositions_getElem_lt ham2
      have hhead := strandSlice_head?
        (b := (negPositions gc)[a]) (e := nextUnderIdx gc (((negPositions gc)[a] + 1) % gc.length)) haL
      have hhead2 := strandSlice_head?
        (b := (negPositions gc)[j]) (e := nextUnderIdx gc (((negPositions gc)[j] + 1) % gc.length)) hjL
      rw [← hpa] at hps
      unfold strandFrom at hps
      rw [hps] at hhead
      rw [hhead2] at hhead
      have hval : gcAt gc (negPositions gc)[j] = gcAt gc (negPositions gc)[a] :=
        Option.some.inj hhead
      unfold gcAt at hval
      rw [List.getD_eq_getElem _ _ hjL, List.getD_eq_getElem _ _ haL] at hval
      have heqidx : (negPositions gc)[j] = (negPositions gc)[a] :=
        (List.Nodup.getElem_inj_iff hnd).mp hval
      have hlt : (negPositions gc)[a] < (negPositions gc)[j] :=
        negPositions_strict_mono ham2 hjm haj
      omega
    rw [if_neg hnotmem]
    have hj1m : (j + 1) % (negPositions gc).length < (negPositions gc).length :=
      Nat.mod_lt _ (by omega)
    have hend : nextUnderIdx gc (((negPositions gc)[j] + 1) % gc.length)
        = (negPositions gc)[(j + 1) % (negPositions gc).length] :=
      nextUnderIdx_np hnz hm hjm hj1m
    rw [hend]
    have hacc : ((negPositions gc).take j).map (strandFrom gc)
          ++ [strandFrom gc ((negPositions gc)[j])]
        = ((negPositions gc).take (j + 1)).map (strandFrom gc) := by
      rw [List.take_succ, List.getElem?_eq_getElem hjm]
      rw [List.map_append]
      rfl
    rw [hacc]
    exact ih (j + 1) (by omega) (by omega) hj1m

theorem findStrandsLoop_full {gc : List Int} (hnz : ∀ x ∈ gc, x ≠ 0) (hnd : gc.Nodup)
    (hm : 2 ≤ (negPositions gc).length) :
    findStrandsLoop gc
      ((negPositions gc).length + 1 + (negPositions gc).get ⟨0, by omega⟩) 0 []
      = some ((negPositions gc).map (strandFrom gc)) := by
  have h0m : 0 < (negPositions gc).length := by omega
  have h0L : (negPositions gc)[0] < gc.length := negPositions_getElem_lt h0m
  have hskip := findStrandsLoop_skip (g := gc) ((negPositions gc)[0])
    ((negPositions gc).length + 1) 0 [] (by omega)
    (by
      intro t ht
      rw [Nat.zero_add, Nat.mod_eq_of_lt (by omega)]
      intro hlt
      exact not_mem_negPositions_below h0m ht
        (negPositions_mem.mpr ⟨by omega, hlt⟩))
  simp only [List.get_eq_getElem]
  rw [hskip, Nat.zero_add, Nat.mod_eq_of_lt h0L]
  rw [findStrandsLoop_succ, if_pos (negPositions_getElem_neg h0m),
    if_neg (List.not_mem_nil _)]
  have h1m : (0 + 1) % (negPositions gc).length < (negPositions gc).length :=
    Nat.mod_lt _ (by omega)
  have hend : nextUnderIdx gc (((negPositions gc)[0] + 1) % gc.length)
      = (negPositions gc)[(0 + 1) % (negPositions gc).length] :=
    nextUnderIdx_np hnz hm h0m h1m
  rw [hend]
  have hacc : ([] : List (List Int)) ++ [strandFrom gc ((negPositions gc)[0])]
      = ((negPositions gc).take 1).map (strandFrom gc) := by
    rw [List.take_succ, List.getElem?_eq_getElem h0m]
    rfl
  rw [hacc]
  have hchain := findStrandsLoop_chain hnz hnd hm ((negPositions gc).length - 1) 1
    (by omega) (by omega)
    (by
      rw [Nat.mod_eq_of_lt (by omega)]
      omega)
  rw [show (negPositions gc).length - 1 + 1 = (negPositions gc).length from by omega] at hchain
  have hidx2 : (0 + 1) % (negPositions gc).length = 1 % (negPositions gc).length := rfl
  rw [getElem_idx_congr hidx2 h1m (Nat.mod_lt _ (by omega))]
  exact hchain

theorem findStrandsF_strands {gc : List Int} {fuel : Nat} {d : List (Char × List Int)}
    (hnz : ∀ x ∈ gc, x ≠ 0) (hnd : gc.Nodup) (hm : 2 ≤ (negPositions gc).length)
    (hd : findStrandsF gc fuel = some (Except.ok d)) :
    d = letterList.zip ((negPositions gc).map (strandFrom gc))
      ∧ ((negPositions gc).map (strandFrom gc)).length ≤ 26 := by
  have hne : gc.isEmpty = false := by
    cases gc with
    | nil => simp [negPositions] at hm
    | cons a t => rfl
  rw [findStrandsF, hne] at hd
  simp only [Bool.false_eq_true, if_false] at hd
  cases hloop : findStrandsLoop gc fuel 0 [] with
  | none =>
    rw [hloop] at hd
    cases hd
  | some strands =>
    rw [hloop] at hd
    have hd2 : (if strands.length ≤ 26 then some (Except.ok (letterList.zip strands))
        else some (Except.error PyErr.indexError)) = some (Except.ok d) := hd
    by_cases h26 : strands.length ≤ 26
    · rw [if_pos h26] at hd2
      have hdz : letterList.zip strands = d := by
        have := Option.some.inj hd2
        exact Except.ok.inj this
      have hfull := findStrandsLoop_full hnz hnd hm
      have hF : fuel ≤ fuel + ((negPositions gc).length + 1
          + (negPositions gc).get ⟨0, by omega⟩) := by omega
      have hF2 : (negPositions gc).length + 1 + (negPositions gc).get ⟨0, by omega⟩
          ≤ fuel + ((negPositions gc).length + 1
            + (negPositions gc).get ⟨0, by omega⟩) := by omega
      have h1 := findStrandsLoop_mono fuel _ 0 [] strands hF hloop
      have h2 := findStrandsLoop_mono _ _ 0 []
        ((negPositions gc).map (strandFrom gc)) hF2 hfull
      rw [h1] at h2
      have hstr : strands = (negPositions gc).map (strandFrom gc) :=
        Option.some.inj h2
      constructor
      · rw [← hdz, hstr]
      · rw [← hstr]
        exact h26
    · rw [if_neg h26] at hd2
      have := Option.some.inj hd2
      cases this

theorem getLastD_irrel (l : List Nat) (d1 d2 : Nat) (h : l ≠ []) :
    l.getLastD d1 = l.getLastD d2 := by
  cases l with
  | nil => exact absurd rfl h
  | cons a t => rfl

theorem getLastD_mem : ∀ (l : List Nat) (d : Nat), l ≠ [] → l.getLastD d ∈ l
  | [], _, h => absurd rfl h
  | [a], d, _ => by simp
  | a :: b :: t, d, _ => by
    have hrec := getLastD_mem (b :: t) a (by simp)
    show (b :: t).getLastD a ∈ a :: b :: t
    exact List.mem_cons_of_mem a hrec

theorem getLastD_eq_getElem : ∀ (l : List Nat) (d : Nat) (h : 0 < l.length),
    l.getLastD d = l[l.length - 1]
  | [], _, h => absurd h (by simp)
  | [a], _, _ => rfl
  | a :: b :: t, d, _ => by
    show (b :: t).getLastD a = _
    rw [getLastD_eq_getElem (b :: t) a (by simp)]
    simp

theorem strandSlice_splice {gc : List Int} {b q e : Nat} (hbq : b < q) (hqe : q < e)
    (heL : e < gc.length) :
    (strandSlice gc b q ++ strandSlice gc q e).Perm
      (strandSlice gc b e ++ [gcAt gc q]) := by
  have hqL : q < gc.length := by omega
  have hgq : gcAt gc q = gc[q] := by
    unfold gcAt
    rw [List.getD_eq_getElem _ _ hqL]
  have hsbq : strandSlice gc b q = (gc.drop b).take (q + 1 - b) := by
    unfold strandSlice
    rw [if_neg (by omega)]
  have hsbe : strandSlice gc b e = (gc.drop b).take (e + 1 - b) := by
    unfold strandSlice
    rw [if_neg (by omega)]
  have hsqe : strandSlice gc q e = gcAt gc q :: (gc.drop (q + 1)).take (e - q) := by
    unfold strandSlice
    rw [if_neg (by omega), List.drop_eq_getElem_cons hqL,
      show e + 1 - q = (e - q) + 1 from by omega, List.take_succ_cons, hgq]
  have hsplit : (gc.drop b).take (e + 1 - b)
      = (gc.drop b).take (q + 1 - b) ++ (gc.drop (q + 1)).take (e - q) := by
    rw [show e + 1 - b = (q + 1 - b) + (e - q) from by omega, List.take_add]
    rw [List.drop_drop, show b + (q + 1 - b) = q + 1 from by omega]
  rw [hsbq, hsbe, hsqe, hsplit]
  refine List.Perm.trans (List.Perm.append_left ((gc.drop b).take (q + 1 - b))
    (@List.perm_append_comm Int [gcAt gc q] ((gc.drop (q + 1)).take (e - q)))) ?_
  rw [List.append_assoc]

theorem consecSlices_length (gc : List Int) :
    ∀ (ps : List Nat) (b : Nat), (consecSlices gc b ps).length = ps.length := by
  intro ps
  induction ps with
  | nil => intro b; rfl
  | cons q rest ih =>
    intro b
    show (strandSlice gc b q :: consecSlices gc q rest).length = rest.length + 1
    rw [List.length_cons, ih q]

theorem consecSlices_getElem (gc : List Int) :
    ∀ (ps : List Nat) (b i : Nat) (hi : i < ps.length)
      (hi2 : i < (consecSlices gc b ps).length) (hi3 : i < (b :: ps).length),
    (consecSlices gc b ps)[i] = strandSlice gc ((b :: ps)[i]) (ps[i]) := by
  intro ps
  induction ps with
  | nil =>
    intro b i hi _ _
    exact absurd hi (by simp)
  | cons q rest ih =>
    intro b i hi hi2 hi3
    cases i with
    | zero => rfl
    | succ i =>
      have h1 : i < rest.length := by simpa using hi
      have h2 : i < (consecSlices gc q rest).length := by
        rw [consecSlices_length]
        exact h1
      have h3 : i < (q :: rest).length := by simp; omega
      show (consecSlices gc q rest)[i] = _
      rw [ih q i h1 h2 h3]
      rfl

theorem consecSlices_perm (gc : List Int) :
    ∀ (ps : List Nat) (b : Nat), ps ≠ [] → List.Chain (· < ·) b ps →
    (∀ q ∈ ps, q < gc.length) →
    (consecSlices gc b ps).flatten.Perm
      (strandSlice gc b (ps.getLastD 0) ++ ps.dropLast.map (gcAt gc)) := by
  intro ps
  induction ps with
  | nil =>
    intro b h _ _
    exact absurd rfl h
  | cons q rest ih =>
    intro b _ hchain hlt
    cases rest with
    | nil =>
      show (strandSlice gc b q :: consecSlices gc q []).flatten.Perm _
      simp [consecSlices]
    | cons r rs =>
      have hbq : b < q := (List.chain_cons.mp hchain).1
      have hchain2 : List.Chain (· < ·) q (r :: rs) := (List.chain_cons.mp hchain).2
      have hpw : List.Pairwise (· < ·) (q :: r :: rs) := List.chain_iff_pairwise.mp hchain2
      have hlast_mem : (r :: rs).getLastD 0 ∈ r :: rs := getLastD_mem _ 0 (by simp)
      have hqlast : q < (r :: rs).getLastD 0 := List.rel_of_pairwise_cons hpw hlast_mem
      have hlastL : (r :: rs).getLastD 0 < gc.length :=
        hlt _ (List.mem_cons_of_mem q hlast_mem)
      have hih := ih q (by simp) hchain2 (fun x hx => hlt x (List.mem_cons_of_mem q hx))
      have hsplice := strandSlice_splice hbq hqlast hlastL
      show (strandSlice gc b q ++ (consecSlices gc q (r :: rs)).flatten).Perm _
      have hgl : ((q :: r :: rs : List Nat)).getLastD 0 = (r :: rs).getLastD 0 :=
        getLastD_irrel (r :: rs) q 0 (by simp)
      have hdl : ((q :: r :: rs : List Nat)).dropLast = q :: (r :: rs).dropLast := rfl
      rw [hgl, hdl]
      refine List.Perm.trans (List.Perm.append_left _ hih) ?_
      rw [← List.append_assoc]
      refine List.Perm.trans (List.Perm.append_right _ hsplice) ?_
      rw [List.append_assoc, List.map_cons]
      exact List.Perm.refl _

theorem filter_range_map (p : Int → Bool) :
    ∀ (gc : List Int),
    gc.filter p = ((List.range gc.length).filter fun i => p (gcAt gc i)).map (gcAt gc) := by
  intro gc
  induction gc with
  | nil => rfl
  | cons a t ih =>
    have hshift : ((List.range t.length).map Nat.succ).filter
          (fun i => p (gcAt (a :: t) i))
        = ((List.range t.length).filter fun i => p (gcAt t i)).map Nat.succ := by
      rw [List.filter_map]
      rfl
    have hmaps : (((List.range t.length).filter fun i => p (gcAt t i)).map Nat.succ).map
          (gcAt (a :: t))
        = ((List.range t.length).filter fun i => p (gcAt t i)).map (gcAt t) := by
      rw [List.map_map]
      rfl
    rw [List.filter_cons, List.length_cons, List.range_succ_eq_map, List.filter_cons,
      hshift]
    by_cases hpa : p a = true
    · rw [if_pos hpa, if_pos (show p (gcAt (a :: t) 0) = true from hpa),
        List.map_cons, hmaps, ih]
      rfl
    · rw [if_neg hpa, if_neg (show ¬ p (gcAt (a :: t) 0) = true from hpa), hmaps, ih]


theorem dropLast_map_strandFrom {gc : List Int} (hnz : ∀ x ∈ gc, x ≠ 0)
    (hm : 2 ≤ (negPositions gc).length) :
    (negPositions gc).dropLast.map (strandFrom gc)
      = consecSlices gc ((negPositions gc).get ⟨0, by omega⟩) (negPositions gc).tail := by
  have htl : (negPositions gc).tail.length = (negPositions gc).length - 1 :=
    List.length_tail _
  refine List.ext_getElem ?_ ?_
  · rw [List.length_map, List.length_dropLast, consecSlices_length, htl]
  · intro n h1 h2
    rw [List.length_map, List.length_dropLast] at h1
    rw [List.getElem_map]
    have hn2 : n < (negPositions gc).tail.length := by omega
    have hn3 : n < (((negPositions gc).get ⟨0, by omega⟩)
        :: (negPositions gc).tail).length := by
      simp
      omega
    rw [consecSlices_getElem gc _ _ n hn2 (by rw [consecSlices_length]; omega) hn3]
    have hdll : n < (negPositions gc).dropLast.length := by
      rw [List.length_dropLast]
      omega
    have hdln : (negPositions gc).dropLast[n] = (negPositions gc)[n] :=
      List.getElem_dropLast _ _ hdll
    rw [hdln]
    have hn1m : (n + 1) % (negPositions gc).length < (negPositions gc).length :=
      Nat.mod_lt _ (by omega)
    have hmod : (n + 1) % (negPositions gc).length = n + 1 :=
      Nat.mod_eq_of_lt (by omega)
    have htail_n : (negPositions gc).tail[n] = (negPositions gc)[n + 1] :=
      List.getElem_tail _ _ (by omega)
    have hhead_n : (((negPositions gc).get ⟨0, by omega⟩)
        :: (negPositions gc).tail)[n] = (negPositions gc)[n] := by
      cases n with
      | zero => rfl
      | succ k =>
        exact (List.getElem_cons_succ _ _ k _).trans (List.getElem_tail _ _ (by omega))
    have hB : nextUnderIdx gc (((negPositions gc)[n] + 1) % gc.length)
        = (negPositions gc)[n + 1] :=
      (nextUnderIdx_np hnz hm (by omega) hn1m).trans
        (getElem_idx_congr hmod hn1m (by omega))
    calc strandFrom gc ((negPositions gc)[n])
        = strandSlice gc ((negPositions gc)[n]) ((negPositions gc)[n + 1]) :=
          congrArg (strandSlice gc ((negPositions gc)[n])) hB
      _ = strandSlice gc ((((negPositions gc).get ⟨0, by omega⟩)
            :: (negPositions gc).tail)[n]) ((negPositions gc).tail[n]) :=
          congr (congrArg (strandSlice gc) hhead_n.symm) htail_n.symm

theorem map_strandFrom_decomp {gc : List Int} (hnz : ∀ x ∈ gc, x ≠ 0)
    (hm : 2 ≤ (negPositions gc).length) :
    (negPositions gc).map (strandFrom gc)
      = consecSlices gc ((negPositions gc).get ⟨0, by omega⟩) (negPositions gc).tail
        ++ [strandFrom gc ((negPositions gc).get
              ⟨(negPositions gc).length - 1, by omega⟩)] := by
  have hne : negPositions gc ≠ [] := by
    intro h
    rw [h] at hm
    simp at hm
  conv_lhs => rw [← List.dropLast_append_getLast hne]
  rw [List.map_append, dropLast_map_strandFrom hnz hm]
  have hlast : (negPositions gc).getLast hne
      = (negPositions gc).get ⟨(negPositions gc).length - 1, by omega⟩ := by
    rw [List.getLast_eq_getElem]
    rfl
  rw [hlast]
  rfl

theorem flatten_strands_perm {gc : List Int} (hnz : ∀ x ∈ gc, x ≠ 0)
    (hm : 2 ≤ (negPositions gc).length) :
    ((negPositions gc).map (strandFrom gc)).flatten.Perm
      (gc ++ gc.filter (fun x => decide (x < 0))) := by
  have hne : negPositions gc ≠ [] := by
    intro h
    rw [h] at hm
    simp at hm
  have htne : (negPositions gc).tail ≠ [] := by
    intro h
    have h2 := congrArg List.length h
    rw [List.length_tail] at h2
    simp only [List.length_nil] at h2
    omega
  have h0m : 0 < (negPositions gc).length := by omega
  have hm1 : (negPositions gc).length - 1 < (negPositions gc).length := by omega
  have htl : (negPositions gc).tail.length = (negPositions gc).length - 1 :=
    List.length_tail _
  have h0tl : 0 < (negPositions gc).tail.length := by omega
  have hx0L : (negPositions gc)[0] < gc.length := negPositions_getElem_lt h0m
  have hxmL : (negPositions gc)[(negPositions gc).length - 1] < gc.length :=
    negPositions_getElem_lt hm1
  have hx0xm : (negPositions gc)[0] < (negPositions gc)[(negPositions gc).length - 1] :=
    negPositions_strict_mono h0m hm1 (by omega)
  rw [map_strandFrom_decomp hnz hm, List.flatten_append]
  simp only [List.flatten_cons, List.flatten_nil, List.append_nil, List.get_eq_getElem]
  have hcons : (negPositions gc)[0] :: (negPositions gc).tail = negPositions gc := by
    have hh := List.head_cons_tail (negPositions gc) hne
    have he : (negPositions gc).head hne = (negPositions gc)[0] :=
      List.head_eq_getElem _ hne
    rw [← he]
    exact hh
  have hchain : List.Chain (· < ·) ((negPositions gc)[0]) (negPositions gc).tail := by
    rw [List.chain_iff_pairwise, hcons]
    exact negPositions_sorted gc
  have hmemL : ∀ q ∈ (negPositions gc).tail, q < gc.length := by
    intro q hq
    exact (negPositions_mem.mp (List.mem_of_mem_tail hq)).1
  have hT1 := consecSlices_perm gc (negPositions gc).tail ((negPositions gc)[0])
    htne hchain hmemL
  have hlastD : (negPositions gc).tail.getLastD 0
      = (negPositions gc)[(negPositions gc).length - 1] := by
    rw [getLastD_eq_getElem _ 0 h0tl]
    have h1 := List.getElem_tail (negPositions gc) ((negPositions gc).tail.length - 1)
      (by omega)
    rw [h1]
    exact getElem_idx_congr (by omega) (by omega) hm1
  rw [hlastD] at hT1
  have hwrapmod : ((negPositions gc).length - 1 + 1) % (negPositions gc).length = 0 := by
    rw [show (negPositions gc).length - 1 + 1 = (negPositions gc).length from by omega]
    exact Nat.mod_self _
  have hj1w : ((negPositions gc).length - 1 + 1) % (negPositions gc).length
      < (negPositions gc).length := by
    rw [hwrapmod]
    omega
  have hBw : nextUnderIdx gc
      (((negPositions gc)[(negPositions gc).length - 1] + 1) % gc.length)
      = (negPositions gc)[0] :=
    (nextUnderIdx_np hnz hm hm1 hj1w).trans (getElem_idx_congr hwrapmod hj1w h0m)
  have hwrap : strandFrom gc ((negPositions gc)[(negPositions gc).length - 1])
      = gc.drop ((negPositions gc)[(negPositions gc).length - 1])
        ++ gc.take ((negPositions gc)[0] + 1) := by
    unfold strandFrom
    rw [hBw]
    unfold strandSlice
    rw [if_pos hx0xm]
  refine List.Perm.trans (List.Perm.append_right _ hT1) ?_
  rw [hwrap]
  have hfilter : gc.filter (fun x => decide (x < 0)) = (negPositions gc).map (gcAt gc) :=
    filter_range_map (fun x => decide (x < 0)) gc
  rw [hfilter]
  have hlast2 : (negPositions gc).tail.getLast htne
      = (negPositions gc)[(negPositions gc).length - 1] := by
    rw [List.getLast_eq_getElem]
    have h1 := List.getElem_tail (negPositions gc) ((negPositions gc).tail.length - 1)
      (by omega)
    rw [h1]
    exact getElem_idx_congr (by omega) (by omega) hm1
  have htail_split : (negPositions gc).tail
      = (negPositions gc).tail.dropLast
        ++ [(negPositions gc)[(negPositions gc).length - 1]] := by
    conv_lhs => rw [← List.dropLast_append_getLast htne]
    rw [hlast2]
  have hnpmap : (negPositions gc).map (gcAt gc)
      = [gcAt gc ((negPositions gc)[0])]
        ++ ((negPositions gc).tail.dropLast.map (gcAt gc)
            ++ [gcAt gc ((negPositions gc)[(negPositions gc).length - 1])]) := by
    conv_lhs => rw [← hcons, List.map_cons, htail_split]
    rw [List.map_append]
    rfl
  have hS : strandSlice gc ((negPositions gc)[0])
        ((negPositions gc)[(negPositions gc).length - 1])
      = (gc.drop ((negPositions gc)[0])).take
          ((negPositions gc)[(negPositions gc).length - 1] + 1 - (negPositions gc)[0]) := by
    unfold strandSlice
    rw [if_neg (by omega)]
  have hdropx0 : gc.drop ((negPositions gc)[0])
      = (gc.drop ((negPositions gc)[0])).take
          ((negPositions gc)[(negPositions gc).length - 1] + 1 - (negPositions gc)[0])
        ++ gc.drop ((negPositions gc)[(negPositions gc).length - 1] + 1) := by
    conv_lhs => rw [← List.take_append_drop
      ((negPositions gc)[(negPositions gc).length - 1] + 1 - (negPositions gc)[0])
      (gc.drop ((negPositions gc)[0]))]
    rw [List.drop_drop,
      show (negPositions gc)[0]
          + ((negPositions gc)[(negPositions gc).length - 1] + 1 - (negPositions gc)[0])
        = (negPositions gc)[(negPositions gc).length - 1] + 1 from by omega]
  have hgc : gc = gc.take ((negPositions gc)[0]) ++ gc.drop ((negPositions gc)[0]) :=
    (List.take_append_drop _ gc).symm
  have hgx0 : gcAt gc ((negPositions gc)[0]) = gc[(negPositions gc)[0]] := by
    unfold gcAt
    rw [List.getD_eq_getElem _ _ hx0L]
  have hgxm : gcAt gc ((negPositions gc)[(negPositions gc).length - 1])
      = gc[(negPositions gc)[(negPositions gc).length - 1]] := by
    unfold gcAt
    rw [List.getD_eq_getElem _ _ hxmL]
  have hdropxm : gc.drop ((negPositions gc)[(negPositions gc).length - 1])
      = [gcAt gc ((negPositions gc)[(negPositions gc).length - 1])]
        ++ gc.drop ((negPositions gc)[(negPositions gc).length - 1] + 1) := by
    rw [List.drop_eq_getElem_cons hxmL, hgxm]
    rfl
  have htakex0 : gc.take ((negPositions gc)[0] + 1)
      = gc.take ((negPositions gc)[0]) ++ [gcAt gc ((negPositions gc)[0])] := by
    rw [List.take_succ, List.getElem?_eq_getElem hx0L, hgx0]
    rfl
  rw [List.perm_iff_count]
  intro a
  have c1 := congrArg (List.count a) hgc
  have c1b := congrArg (List.count a) hdropx0
  have c2 := congrArg (List.count a) htakex0
  have c3 := congrArg (List.count a) hdropxm
  have c4 := congrArg (List.count a) hnpmap
  have c5 := congrArg (List.count a) hS
  simp only [List.count_append] at c1 c1b c2 c3 c4 c5 ⊢
  omega

theorem strands_of_dict {gc : List Int} {fuel : Nat} {d : List (Char × List Int)}
    (hnz : ∀ x ∈ gc, x ≠ 0) (hnd : gc.Nodup) (hm : 2 ≤ (negPositions gc).length)
    (hd : findStrandsF gc fuel = some (Except.ok d)) :
    ∀ pr ∈ d, ∃ j, ∃ hj : j < (negPositions gc).length,
      pr.2 = strandFrom gc ((negPositions gc)[j]) := by
  obtain ⟨hdz, h26⟩ := findStrandsF_strands hnz hnd hm hd
  intro pr hpr
  obtain ⟨c, s⟩ := pr
  rw [hdz] at hpr
  obtain ⟨hc, hs⟩ := List.of_mem_zip hpr
  obtain ⟨b, hb, hbs⟩ := List.mem_map.mp hs
  obtain ⟨j, hj, hjb⟩ := List.mem_iff_getElem.mp hb
  refine ⟨j, hj, ?_⟩
  rw [← hjb] at hbs
  exact hbs.symm

/-- **C9** (amended): for a well-formed Gauss code with at least two
under-passes, whenever `find_strands` returns a dictionary `d`: (i) the
strand tuples of `d`, concatenated, are a permutation of the code followed
by its negative entries — every position of the circular code is covered,
with exactly the under-pass positions covered twice (each under-pass ends
one strand and begins the next); (ii) every strand tuple begins and ends
with an under-pass (negative) entry; hence (iii) the set of labels whose
tuple starts with an under-pass equals the set of labels whose tuple ends
with one (both are all of them, in identical order). -/
theorem claim9_strand_coverage {gc : List Int} {fuel : Nat} {d : List (Char × List Int)}
    (hwf : WellFormedGauss gc) (hm : 2 ≤ (negPositions gc).length)
    (hd : findStrandsF gc fuel = some (Except.ok d)) :
    ((d.map fun pr => pr.2).flatten).Perm (gc ++ gc.filter fun x => decide (x < 0))
      ∧ (∀ pr ∈ d, (pr.2.head?.any fun v => decide (v < 0)) = true
          ∧ (pr.2.getLast?.any fun v => decide (v < 0)) = true)
      ∧ ((d.filter fun pr => pr.2.head?.any fun v => decide (v < 0)).map fun pr => pr.1)
        = ((d.filter fun pr => pr.2.getLast?.any fun v => decide (v < 0)).map
            fun pr => pr.1) := by
  have hnz : ∀ x ∈ gc, x ≠ 0 := fun x hx => (hwf.2 x hx).1
  have hnd : gc.Nodup := wf_nodup hwf
  obtain ⟨hdz, h26⟩ := findStrandsF_strands hnz hnd hm hd
  have hsnd : d.map (fun pr => pr.2) = (negPositions gc).map (strandFrom gc) := by
    rw [hdz]
    exact List.map_snd_zip letterList _ (by
      rw [show letterList.length = 26 from rfl]
      exact h26)
  have part1 : ((d.map fun pr => pr.2).flatten).Perm
      (gc ++ gc.filter fun x => decide (x < 0)) := by
    rw [hsnd]
    exact flatten_strands_perm hnz hm
  have part2 : ∀ pr ∈ d, (pr.2.head?.any fun v => decide (v < 0)) = true
      ∧ (pr.2.getLast?.any fun v => decide (v < 0)) = true := by
    intro pr hpr
    obtain ⟨j, hj, hprs⟩ := strands_of_dict hnz hnd hm hd pr hpr
    have hbL : (negPositions gc)[j] < gc.length := negPositions_getElem_lt hj
    have hj1m : (j + 1) % (negPositions gc).length < (negPositions gc).length :=
      Nat.mod_lt _ (by omega)
    have hend := nextUnderIdx_np hnz hm hj hj1m
    have heL : (negPositions gc)[(j + 1) % (negPositions gc).length] < gc.length :=
      negPositions_getElem_lt hj1m
    have hhead : (strandFrom gc ((negPositions gc)[j])).head?
        = some (gcAt gc ((negPositions gc)[j])) := strandSlice_head? hbL
    have hlast : (strandFrom gc ((negPositions gc)[j])).getLast?
        = some (gcAt gc ((negPositions gc)[(j + 1) % (negPositions gc).length])) := by
      unfold strandFrom
      rw [hend]
      exact strandSlice_getLast? hbL heL
    constructor
    · rw [hprs, hhead, Option.any_some]
      exact decide_eq_true (negPositions_getElem_neg hj)
    · rw [hprs, hlast, Option.any_some]
      exact decide_eq_true (negPositions_getElem_neg hj1m)
  have hf1 : (d.filter fun pr => pr.2.head?.any fun v => decide (v < 0)) = d :=
    List.filter_eq_self.mpr (fun pr hpr => (part2 pr hpr).1)
  have hf2 : (d.filter fun pr => pr.2.getLast?.any fun v => decide (v < 0)) = d :=
    List.filter_eq_self.mpr (fun pr hpr => (part2 pr hpr).2)
  exact ⟨part1, part2, by rw [hf1, hf2]⟩

/-- **C9** (witness): the trefoil-like code `[-1, 2, -3, 1, -2, 3]` is
well-formed with three under-passes, `find_strands` succeeds on it, and the
concatenated strand tuples are a permutation of the code plus its negative
entries. -/
theorem claim9_coverage_witness :
    WellFormedGauss [-1, 2, -3, 1, -2, 3]
      ∧ 2 ≤ (negPositions [-1, 2, -3, 1, -2, 3]).length
      ∧ ∃ d, findStrandsF [-1, 2, -3, 1, -2, 3] 10 = some (Except.ok d)
        ∧ ((d.map fun pr => pr.2).flatten).Perm
            ([-1, 2, -3, 1, -2, 3]
              ++ ([-1, 2, -3, 1, -2, 3] : List Int).filter fun x => decide (x < 0)) :=
  ⟨⟨by decide, by decide⟩, by decide,
    ⟨[(Char.ofNat 65, [-1, 2, -3]), (Char.ofNat 66, [-3, 1, -2]),
        (Char.ofNat 67, [-2, 3, -1])], rfl,
      (@claim9_strand_coverage [-1, 2, -3, 1, -2, 3] 10
        [(Char.ofNat 65, [-1, 2, -3]), (Char.ofNat 66, [-3, 1, -2]),
          (Char.ofNat 67, [-2, 3, -1])]
        ⟨by decide, by decide⟩ (by decide) rfl).1⟩⟩

/-- **C9** (counterexample to the claim as stated): on the valid Gauss code
`[-1, 2, -3, 1, -2, 3]` the strand tuples returned by `find_strands` hold 9
entries in total, not 6 — the three under-pass positions are each shared by
two strands (one ends there, the next begins there), so the tuples do not
partition the positions of the code with each position in exactly one
strand. -/
theorem claim9_overlap_counterexample :
    ∃ d, findStrandsF [-1, 2, -3, 1, -2, 3] 10 = some (Except.ok d)
      ∧ ((d.map fun pr => pr.2).flatten).length = 9
      ∧ ([-1, 2, -3, 1, -2, 3] : List Int).length = 6 := by
  refine ⟨_, rfl, by decide, by decide⟩
